import Mathlib

/-!
Verification development for the mail-studio MJML document core and its
surrounding editor glue.

The schema / compiler / template implementations are re-exported by the
repository's `lib/mjml` index but their source files are not part of the
provided sources; everywhere a definition depends on them it is modelled
from the specification (each such definition carries a doc comment starting
with `Modelled from the spec:`).  The code-editor locked-region logic, the
code-editor sync handlers, and the email-sending POST route are embedded
directly from the provided sources.
-/

namespace MailStudio

/-- Modelled from the spec: the closed set of component kinds of the node
model (document root, body, section, column, text, image, button, divider,
spacer, social block + social element, navbar, accordion, carousel, table,
raw-HTML passthrough). -/
inductive MJType where
  | mjml
  | mjBody
  | mjSection
  | mjColumn
  | mjText
  | mjImage
  | mjButton
  | mjDivider
  | mjSpacer
  | mjSocial
  | mjSocialElement
  | mjNavbar
  | mjAccordion
  | mjCarousel
  | mjTable
  | mjRaw
deriving DecidableEq, Repr

/-- Modelled from the spec: the markup tag spelled for each component kind. -/
def tagName : MJType → String
  | .mjml => "mjml"
  | .mjBody => "mj-body"
  | .mjSection => "mj-section"
  | .mjColumn => "mj-column"
  | .mjText => "mj-text"
  | .mjImage => "mj-image"
  | .mjButton => "mj-button"
  | .mjDivider => "mj-divider"
  | .mjSpacer => "mj-spacer"
  | .mjSocial => "mj-social"
  | .mjSocialElement => "mj-social-element"
  | .mjNavbar => "mj-navbar"
  | .mjAccordion => "mj-accordion"
  | .mjCarousel => "mj-carousel"
  | .mjTable => "mj-table"
  | .mjRaw => "mj-raw"

/-- Modelled from the spec: recognizing a tag name as a component kind
(inverse of `tagName`; unknown names yield `none`). -/
def tagToType (s : String) : Option MJType :=
  if s = "mjml" then some .mjml
  else if s = "mj-body" then some .mjBody
  else if s = "mj-section" then some .mjSection
  else if s = "mj-column" then some .mjColumn
  else if s = "mj-text" then some .mjText
  else if s = "mj-image" then some .mjImage
  else if s = "mj-button" then some .mjButton
  else if s = "mj-divider" then some .mjDivider
  else if s = "mj-spacer" then some .mjSpacer
  else if s = "mj-social" then some .mjSocial
  else if s = "mj-social-element" then some .mjSocialElement
  else if s = "mj-navbar" then some .mjNavbar
  else if s = "mj-accordion" then some .mjAccordion
  else if s = "mj-carousel" then some .mjCarousel
  else if s = "mj-table" then some .mjTable
  else if s = "mj-raw" then some .mjRaw
  else none

theorem tagToType_tagName (t : MJType) : tagToType (tagName t) = some t := by
  cases t <;> rfl

/-- Modelled from the spec: ordered set of child types permissible under a
type; empty for leaf types (a section may only contain columns, a column
only content-leaf types — the column list mirrors the canvas renderer's
`columnAcceptTypes`). -/
def getAllowedChildren : MJType → List MJType
  | .mjml => [.mjBody]
  | .mjBody => [.mjSection]
  | .mjSection => [.mjColumn]
  | .mjColumn =>
      [.mjText, .mjImage, .mjButton, .mjDivider, .mjSpacer, .mjSocial,
       .mjNavbar, .mjAccordion, .mjCarousel, .mjTable, .mjRaw]
  | .mjSocial => [.mjSocialElement]
  | _ => []

/-- Modelled from the spec: membership test against `getAllowedChildren`. -/
def canContain (parent child : MJType) : Bool :=
  (getAllowedChildren parent).contains child

/-- Modelled from the spec: whether a type accepts structural children. -/
def acceptsChildren (t : MJType) : Bool :=
  !(getAllowedChildren t).isEmpty

/-- Modelled from the spec: the text-bearing leaf types, whose text content
between tags is captured verbatim as `content`. -/
def hasTextContent : MJType → Bool
  | .mjText => true
  | .mjButton => true
  | .mjTable => true
  | .mjRaw => true
  | _ => false

/-- Modelled from the spec: allowed attribute names with default values for
each component kind; absent keys fall back to these, never to "". -/
def defaultProps : MJType → List (String × String)
  | .mjSection => [("background-color", "#ffffff"), ("padding", "20px 0")]
  | .mjColumn => [("padding", "10px")]
  | .mjText => [("font-size", "14px"), ("color", "#000000")]
  | .mjImage => [("src", "https://placehold.co/600x200"), ("alt", "image")]
  | .mjButton => [("background-color", "#414141"), ("color", "#ffffff"), ("href", "#")]
  | .mjDivider => [("border-color", "#e2e8f0"), ("border-width", "1px")]
  | .mjSpacer => [("height", "30px")]
  | .mjSocial => [("align", "center")]
  | .mjSocialElement => [("name", "facebook"), ("href", "#")]
  | .mjNavbar => [("align", "center")]
  | _ => []

/-- Modelled from the spec: default text content of the text-bearing types. -/
def defaultContent : MJType → Option String
  | .mjText => some "Hello World"
  | .mjButton => some "Click me"
  | .mjTable => some "Table content"
  | _ => none

/-- Modelled from the spec: fixed list of known social-platform identifiers
with their brand colors (for icon/color lookup). -/
def predefinedSocialPlatforms : List (String × String) :=
  [("facebook", "#1877f2"), ("twitter", "#1da1f2"), ("linkedin", "#0a66c2"),
   ("instagram", "#e4405f"), ("youtube", "#ff0000"), ("github", "#333333"),
   ("web", "#4a4a4a")]

/-- Modelled from the spec: the tree node — identity, kind, attribute bag,
ordered children, optional raw text payload. -/
inductive Node where
  | mk (id : Nat) (type : MJType) (props : List (String × String))
      (children : List Node) (content : Option String)

def Node.id : Node → Nat
  | .mk i _ _ _ _ => i

def Node.type : Node → MJType
  | .mk _ t _ _ _ => t

def Node.props : Node → List (String × String)
  | .mk _ _ p _ _ => p

def Node.children : Node → List Node
  | .mk _ _ _ c _ => c

def Node.content : Node → Option String
  | .mk _ _ _ _ c => c

@[simp] theorem Node.id_mk (i t p c s) : (Node.mk i t p c s).id = i := rfl
@[simp] theorem Node.type_mk (i t p c s) : (Node.mk i t p c s).type = t := rfl
@[simp] theorem Node.props_mk (i t p c s) : (Node.mk i t p c s).props = p := rfl
@[simp] theorem Node.children_mk (i t p c s) : (Node.mk i t p c s).children = c := rfl
@[simp] theorem Node.content_mk (i t p c s) : (Node.mk i t p c s).content = s := rfl

mutual

/-- Number of nodes in a tree. -/
def nodeCount : Node → Nat
  | .mk _ _ _ children _ => 1 + nodeListCount children

/-- Number of nodes in a forest. -/
def nodeListCount : List Node → Nat
  | [] => 0
  | n :: ns => nodeCount n + nodeListCount ns

end

mutual

/-- All identifiers of a tree, in pre-order. -/
def nodeIds : Node → List Nat
  | .mk i _ _ children _ => i :: nodeListIds children

/-- All identifiers of a forest, in pre-order. -/
def nodeListIds : List Node → List Nat
  | [] => []
  | n :: ns => nodeIds n ++ nodeListIds ns

end

mutual

/-- The tree with every identifier replaced by 0: structural equality
"modulo node identifiers" is equality of `eraseIds` images. -/
def eraseIds : Node → Node
  | .mk _ t p children c => .mk 0 t p (eraseIdsList children) c

/-- `eraseIds` over a forest. -/
def eraseIdsList : List Node → List Node
  | [] => []
  | n :: ns => eraseIds n :: eraseIdsList ns

end

mutual

/-- Modelled from the spec: `cloneDocumentWithNewIds(root)` deep-copies a
tree, assigning every node (root and all descendants) a freshly generated
id; attributes, content, and child order are preserved exactly.  The
process-wide `generateId` counter is threaded explicitly: the result pairs
the clone with the next unused counter value. -/
def cloneDocumentWithNewIds : Node → Nat → Node × Nat
  | .mk _ t p children c, k =>
      let r := cloneListWithNewIds children (k + 1)
      (.mk k t p r.1 c, r.2)

/-- Clone of a forest, threading the fresh-id counter left to right. -/
def cloneListWithNewIds : List Node → Nat → List Node × Nat
  | [], k => ([], k)
  | n :: ns, k =>
      let r := cloneDocumentWithNewIds n k
      let rs := cloneListWithNewIds ns r.2
      (r.1 :: rs.1, rs.2)

end

/-- Modelled from the spec: the catalog's default set of social elements
used when a social block is created with no explicit children. -/
def defaultSocialElements : List Node :=
  [.mk 0 .mjSocialElement [("name", "facebook"), ("href", "#")] [] none,
   .mk 0 .mjSocialElement [("name", "twitter"), ("href", "#")] [] none,
   .mk 0 .mjSocialElement [("name", "linkedin"), ("href", "#")] [] none]

/-- Modelled from the spec: the schema-declared default children of a type
(only the social block has any). -/
def defaultChildren : MJType → List Node
  | .mjSocial => defaultSocialElements
  | _ => []

/-- Modelled from the spec: `createNode(type)` builds a node of `type`
populated with schema defaults whose children are the schema-declared
default children and content, each node receiving a fresh id from the
threaded `generateId` counter. -/
def createNode (t : MJType) (k : Nat) : Node × Nat :=
  cloneDocumentWithNewIds
    (.mk 0 t (defaultProps t) (defaultChildren t) (defaultContent t)) k

mutual

theorem cloneNode_counter (n : Node) (k : Nat) :
    (cloneDocumentWithNewIds n k).2 = k + nodeCount n := by
  match n with
  | .mk i t p children c =>
    simp only [cloneDocumentWithNewIds, nodeCount]
    rw [cloneList_counter children (k + 1)]
    omega

theorem cloneList_counter (ns : List Node) (k : Nat) :
    (cloneListWithNewIds ns k).2 = k + nodeListCount ns := by
  match ns with
  | [] => simp [cloneListWithNewIds, nodeListCount]
  | n :: rest =>
    simp only [cloneListWithNewIds, nodeListCount]
    rw [cloneNode_counter n k, cloneList_counter rest (k + nodeCount n)]
    omega

end

mutual

theorem cloneNode_ids (n : Node) (k : Nat) :
    nodeIds (cloneDocumentWithNewIds n k).1 = List.range' k (nodeCount n) := by
  match n with
  | .mk i t p children c =>
    simp only [cloneDocumentWithNewIds, nodeIds, nodeCount]
    rw [cloneList_ids children (k + 1), Nat.add_comm 1 (nodeListCount children),
      List.range'_succ]

theorem cloneList_ids (ns : List Node) (k : Nat) :
    nodeListIds (cloneListWithNewIds ns k).1 = List.range' k (nodeListCount ns) := by
  match ns with
  | [] => simp [cloneListWithNewIds, nodeListIds, nodeListCount]
  | n :: rest =>
    simp only [cloneListWithNewIds, nodeListIds, nodeListCount]
    rw [cloneNode_ids n k]
    rw [cloneNode_counter n k]
    rw [cloneList_ids rest (k + nodeCount n)]
    have h := List.range'_append k (nodeCount n) (nodeListCount rest) 1
    rw [one_mul] at h
    rw [h, Nat.add_comm (nodeListCount rest) (nodeCount n)]

end

mutual

theorem cloneNode_erase (n : Node) (k : Nat) :
    eraseIds (cloneDocumentWithNewIds n k).1 = eraseIds n := by
  match n with
  | .mk i t p children c =>
    simp only [cloneDocumentWithNewIds, eraseIds]
    rw [cloneList_erase children (k + 1)]

theorem cloneList_erase (ns : List Node) (k : Nat) :
    eraseIdsList (cloneListWithNewIds ns k).1 = eraseIdsList ns := by
  match ns with
  | [] => rfl
  | n :: rest =>
    simp only [cloneListWithNewIds, eraseIdsList]
    rw [cloneNode_erase n k, cloneList_erase rest (cloneDocumentWithNewIds n k).2]

end

mutual

theorem eraseIds_idem (n : Node) : eraseIds (eraseIds n) = eraseIds n := by
  match n with
  | .mk i t p children c =>
    simp only [eraseIds]
    rw [eraseIdsList_idem children]

theorem eraseIdsList_idem (ns : List Node) :
    eraseIdsList (eraseIdsList ns) = eraseIdsList ns := by
  match ns with
  | [] => rfl
  | n :: rest =>
    simp only [eraseIdsList]
    rw [eraseIds_idem n, eraseIdsList_idem rest]

end

theorem mem_cloneNode_ids {n : Node} {k i : Nat}
    (h : i ∈ nodeIds (cloneDocumentWithNewIds n k).1) :
    k ≤ i ∧ i < k + nodeCount n := by
  rw [cloneNode_ids] at h
  have := List.mem_range'_1.mp h
  omega

/-- C4: a tree produced by `cloneDocumentWithNewIds` carries a freshly
generated id on the root and every descendant (all ids are drawn from the
counter interval starting at the call's counter), no two nodes share an id,
ids are disjoint from those of a repeated call on the same source tree, and
attributes, content, and child order are preserved exactly (the trees agree
after erasing ids). -/
theorem claim4_clone_fresh_ids_unique_structure_preserved (n : Node) (k : Nat) :
    (nodeIds (cloneDocumentWithNewIds n k).1).Nodup ∧
    (∀ i ∈ nodeIds (cloneDocumentWithNewIds n k).1, k ≤ i) ∧
    List.Disjoint (nodeIds (cloneDocumentWithNewIds n k).1)
      (nodeIds (cloneDocumentWithNewIds n (cloneDocumentWithNewIds n k).2).1) ∧
    eraseIds (cloneDocumentWithNewIds n k).1 = eraseIds n := by
  refine ⟨?_, ?_, ?_, cloneNode_erase n k⟩
  · rw [cloneNode_ids]
    exact List.nodup_range' _ _
  · intro i hi
    exact (mem_cloneNode_ids hi).1
  · intro i hi hi'
    have h1 := mem_cloneNode_ids hi
    have h2 := mem_cloneNode_ids hi'
    rw [cloneNode_counter] at h2
    omega

/-- C6: `createNode("mj-social")` with no overrides yields a node whose
children are exactly the catalog's predefined default social elements
(modulo the freshly assigned ids), not an empty sequence. -/
theorem claim6_createNode_social_has_default_elements (k : Nat) :
    (createNode .mjSocial k).1.children ≠ [] ∧
    eraseIdsList ((createNode .mjSocial k).1.children) = defaultSocialElements := by
  have hmain :
      eraseIdsList ((createNode .mjSocial k).1.children) = defaultSocialElements := by
    simp only [createNode, cloneDocumentWithNewIds, defaultChildren, Node.children_mk]
    rw [cloneList_erase]
    rfl
  refine ⟨?_, hmain⟩
  intro h
  rw [h] at hmain
  exact absurd hmain.symm (by simp [defaultSocialElements, eraseIdsList])

/-! ## Markup tokens and the tolerant tokenizer -/

/-- A lexical token of the markup text: opening tag with attributes,
self-closing tag, closing tag, or a run of text between tags. -/
inductive Token where
  | tagOpen (name : String) (attrs : List (String × String))
  | tagSelfClose (name : String) (attrs : List (String × String))
  | tagClose (name : String)
  | text (s : String)
deriving DecidableEq, Repr

/-- Canonical rendering of an attribute list: ` key="value"` pairs. -/
def renderAttrsChars : List (String × String) → List Char
  | [] => []
  | (k, v) :: rest =>
      ' ' :: (k.data ++ '=' :: '"' :: (v.data ++ '"' :: renderAttrsChars rest))

/-- Canonical rendering of one token back to characters. -/
def renderToken : Token → List Char
  | .tagOpen n attrs => '<' :: (n.data ++ renderAttrsChars attrs ++ ['>'])
  | .tagSelfClose n attrs => '<' :: (n.data ++ renderAttrsChars attrs ++ [' ', '/', '>'])
  | .tagClose n => '<' :: '/' :: (n.data ++ ['>'])
  | .text s => s.data

/-- Rendering of a token list. -/
def renderTokens : List Token → List Char
  | [] => []
  | t :: ts => renderToken t ++ renderTokens ts

def isNameChar (c : Char) : Bool := c.isAlphanum || c == '-' || c == '_'

def isQuoteChar (c : Char) : Bool := c == '"' || c.toNat == 39

mutual

/-- Modelled from the spec: the tolerant tokenizer of `parseMjmlToNode`.
It splits markup text into tags/attributes/text, accepts quoted attribute
values, skips malformed attribute fragments, and signals a typed parse
error only on fatal failure (an unterminated quoted value). -/
def lexMain : List Char → Except String (List Token)
  | [] => .ok []
  | c :: rest =>
    if c = '<' then lexLt rest
    else lexTextAcc [c] rest
termination_by l => 2 * l.length
decreasing_by all_goals ((try simp only [List.length_cons]); omega)

/-- Dispatch after a `<`. -/
def lexLt : List Char → Except String (List Token)
  | [] => .ok [.text "<"]
  | c2 :: r2 =>
    if c2 = '/' then lexCloseName [] r2
    else if isNameChar c2 then lexOpenName [c2] r2
    else lexTextAcc ['<'] (c2 :: r2)
termination_by l => 2 * l.length + 1
decreasing_by all_goals ((try simp only [List.length_cons]); omega)

/-- Accumulate a text run until the next tag opener. -/
def lexTextAcc (buf : List Char) : List Char → Except String (List Token)
  | [] => .ok [.text (String.mk buf)]
  | c :: rest =>
    if c = '<' then lexTextLt buf rest
    else lexTextAcc (buf ++ [c]) rest
termination_by l => 2 * l.length
decreasing_by all_goals ((try simp only [List.length_cons]); omega)

/-- Dispatch after a `<` inside a text run. -/
def lexTextLt (buf : List Char) : List Char → Except String (List Token)
  | [] => .ok [.text (String.mk (buf ++ ['<']))]
  | c2 :: r2 =>
    if c2 = '/' then (lexCloseName [] r2).map (fun ts => .text (String.mk buf) :: ts)
    else if isNameChar c2 then
      (lexOpenName [c2] r2).map (fun ts => .text (String.mk buf) :: ts)
    else lexTextAcc (buf ++ ['<']) (c2 :: r2)
termination_by l => 2 * l.length + 1
decreasing_by all_goals ((try simp only [List.length_cons]); omega)

/-- Accumulate the name of a closing tag. -/
def lexCloseName (nm : List Char) : List Char → Except String (List Token)
  | [] => .ok [.tagClose (String.mk nm)]
  | c :: rest =>
    if c = '>' then (lexMain rest).map (fun ts => .tagClose (String.mk nm) :: ts)
    else if isNameChar c then lexCloseName (nm ++ [c]) rest
    else lexCloseSkip nm rest
termination_by l => 2 * l.length
decreasing_by all_goals ((try simp only [List.length_cons]); omega)

/-- Skip stray characters inside a closing tag until `>`. -/
def lexCloseSkip (nm : List Char) : List Char → Except String (List Token)
  | [] => .ok [.tagClose (String.mk nm)]
  | c :: rest =>
    if c = '>' then (lexMain rest).map (fun ts => .tagClose (String.mk nm) :: ts)
    else lexCloseSkip nm rest
termination_by l => 2 * l.length
decreasing_by all_goals ((try simp only [List.length_cons]); omega)

/-- Accumulate the name of an opening tag. -/
def lexOpenName (nm : List Char) : List Char → Except String (List Token)
  | [] => .ok [.tagOpen (String.mk nm) []]
  | c :: rest =>
    if c = '>' then (lexMain rest).map (fun ts => .tagOpen (String.mk nm) [] :: ts)
    else if c = '/' then lexAfterSlash (String.mk nm) [] rest
    else if isNameChar c then lexOpenName (nm ++ [c]) rest
    else lexAttrList (String.mk nm) [] rest
termination_by l => 2 * l.length
decreasing_by all_goals ((try simp only [List.length_cons]); omega)

/-- After a `/` inside a tag: `/>` closes the tag self-closingly, any
other continuation skips the stray slash. -/
def lexAfterSlash (tag : String) (acc : List (String × String)) :
    List Char → Except String (List Token)
  | [] => .ok [.tagOpen tag acc]
  | c :: rest =>
    if c = '>' then (lexMain rest).map (fun ts => .tagSelfClose tag acc :: ts)
    else lexAttrList tag acc (c :: rest)
termination_by l => 2 * l.length + 1
decreasing_by all_goals ((try simp only [List.length_cons]); omega)

/-- Scan the attribute region of an opening tag. -/
def lexAttrList (tag : String) (acc : List (String × String)) :
    List Char → Except String (List Token)
  | [] => .ok [.tagOpen tag acc]
  | c :: rest =>
    if c = '>' then (lexMain rest).map (fun ts => .tagOpen tag acc :: ts)
    else if c = '/' then lexAfterSlash tag acc rest
    else if isNameChar c then lexAttrName tag acc [c] rest
    else lexAttrList tag acc rest
termination_by l => 2 * l.length
decreasing_by all_goals ((try simp only [List.length_cons]); omega)

/-- Accumulate an attribute name. -/
def lexAttrName (tag : String) (acc : List (String × String)) (nm : List Char) :
    List Char → Except String (List Token)
  | [] => .ok [.tagOpen tag acc]
  | c :: rest =>
    if c = '>' then (lexMain rest).map (fun ts => .tagOpen tag acc :: ts)
    else if c = '/' then lexAfterSlash tag acc rest
    else if c = '=' then lexAttrEq tag acc nm rest
    else if isNameChar c then lexAttrName tag acc (nm ++ [c]) rest
    else lexAttrList tag acc rest
termination_by l => 2 * l.length
decreasing_by all_goals ((try simp only [List.length_cons]); omega)

/-- After `name=`: a quote starts the value, anything else is a malformed
fragment and is skipped. -/
def lexAttrEq (tag : String) (acc : List (String × String)) (nm : List Char) :
    List Char → Except String (List Token)
  | [] => .ok [.tagOpen tag acc]
  | c2 :: r2 =>
    if isQuoteChar c2 then lexAttrValue tag acc nm c2 [] r2
    else lexAttrList tag acc (c2 :: r2)
termination_by l => 2 * l.length + 1
decreasing_by all_goals ((try simp only [List.length_cons]); omega)

/-- Accumulate a quoted attribute value; an unterminated quote is the
fatal tokenization failure. -/
def lexAttrValue (tag : String) (acc : List (String × String)) (nm : List Char)
    (q : Char) (buf : List Char) : List Char → Except String (List Token)
  | [] => .error "Unterminated quoted attribute value"
  | c :: rest =>
    if c = q then lexAttrList tag (acc ++ [(String.mk nm, String.mk buf)]) rest
    else lexAttrValue tag acc nm q (buf ++ [c]) rest
termination_by l => 2 * l.length
decreasing_by all_goals ((try simp only [List.length_cons]); omega)

end

/-! ## The tree-building machine of the parser -/

/-- An open element on the parser's stack-of-open-elements.  A capturing
element (text-bearing leaf or raw passthrough) accumulates the markup of
its interior verbatim in `buffer`; `depth` counts same-name nesting while
capturing; `rawCapture` marks unknown or misplaced tags being coerced to a
raw passthrough node. -/
structure OpenElem where
  otype : MJType
  tag : String
  props : List (String × String)
  children : List Node
  buffer : List Char
  hasBuf : Bool
  capturing : Bool
  rawCapture : Bool
  depth : Nat

/-- Modelled from the spec: head settings — fonts, breakpoint, and
attributes-by-tag defaults — serialized into a distinct markup region. -/
structure HeadSettings where
  fonts : List (String × String)
  breakpoint : Option String
  attributesByTag : List (String × List (String × String))
deriving DecidableEq, Repr

/-- Head data accumulated while the parser is inside the head block. -/
structure HeadAcc where
  fonts : List (String × String)
  breakpoint : Option String
  attributesByTag : List (String × List (String × String))
  inAttributes : Bool
deriving Repr

/-- Full parser state: stack of open elements, completed top-level nodes,
and the head-block submode. -/
structure PState where
  stack : List OpenElem
  roots : List Node
  inHead : Bool
  headDepth : Nat
  head : HeadAcc

/-- Modelled from the spec: attribute defaulting — schema defaults
overridden by the attributes present in the markup; unknown attributes are
kept after the known ones. -/
def mergeDefaults (t : MJType) (attrs : List (String × String)) :
    List (String × String) :=
  ((defaultProps t).map (fun kv => (kv.1, (attrs.lookup kv.1).getD kv.2))) ++
    attrs.filter (fun kv => ((defaultProps t).lookup kv.1).isNone)

/-- Attach a completed node to the element below it (or to the completed
top-level nodes when the stack is empty). -/
def attachNode (st : PState) (c : Node) : PState :=
  match st.stack with
  | [] => { st with roots := st.roots ++ [c] }
  | oe :: rest => { st with stack := { oe with children := oe.children ++ [c] } :: rest }

@[simp] theorem attachNode_stack_length (st : PState) (c : Node) :
    (attachNode st c).stack.length = st.stack.length := by
  unfold attachNode
  match st with
  | .mk [] r ih hd h => rfl
  | .mk (oe :: rest) r ih hd h => rfl

/-- Whether the element currently open on top of the stack (the whole
document when the stack is empty) accepts a child of the given type. -/
def topAccepts : List OpenElem → MJType → Bool
  | [], _ => true
  | oe :: _, t => canContain oe.otype t

/-- Build the node for an element being closed. -/
def finalizeElem (oe : OpenElem) : Node :=
  if oe.rawCapture then
    .mk 0 .mjRaw [] [] (some (String.mk oe.buffer))
  else
    .mk 0 oe.otype oe.props oe.children
      (if oe.hasBuf then some (String.mk oe.buffer) else none)

/-- Modelled from the spec: head-block handling — fonts, breakpoint and
attributes-by-tag are merged into their own structure, never folded into
the body tree (the stack is untouched in head mode). -/
def stepHead (st : PState) (t : Token) : PState :=
  match t with
  | .tagOpen nm _ =>
      if nm = "mj-attributes" then
        { st with
          headDepth := st.headDepth + 1,
          head := { st.head with inAttributes := true } }
      else { st with headDepth := st.headDepth + 1 }
  | .tagSelfClose nm attrs =>
      if nm = "mj-font" then
        { st with head :=
            { st.head with fonts := st.head.fonts ++
                [((attrs.lookup "name").getD "", (attrs.lookup "href").getD "")] } }
      else if nm = "mj-breakpoint" then
        { st with head := { st.head with breakpoint := attrs.lookup "width" } }
      else if st.head.inAttributes then
        { st with head :=
            { st.head with attributesByTag :=
                st.head.attributesByTag ++ [(nm, attrs)] } }
      else st
  | .tagClose nm =>
      if st.headDepth = 0 then
        if nm = "mj-head" then { st with inHead := false } else st
      else
        if nm = "mj-attributes" then
          { st with
            headDepth := st.headDepth - 1,
            head := { st.head with inAttributes := false } }
        else { st with headDepth := st.headDepth - 1 }
  | .text _ => st

/-- Step of a capturing top element: all tokens are appended verbatim to
the buffer until the matching close at nesting depth zero. -/
def stepCapture (st : PState) (oe : OpenElem) (rest : List OpenElem)
    (t : Token) : PState :=
  match t with
  | .tagOpen nm attrs =>
      if nm = oe.tag then
        { st with stack :=
            { oe with
              depth := oe.depth + 1,
              buffer := oe.buffer ++ renderToken (.tagOpen nm attrs),
              hasBuf := true } :: rest }
      else
        { st with stack :=
            { oe with
              buffer := oe.buffer ++ renderToken (.tagOpen nm attrs),
              hasBuf := true } :: rest }
  | .tagSelfClose nm attrs =>
      { st with stack :=
          { oe with
            buffer := oe.buffer ++ renderToken (.tagSelfClose nm attrs),
            hasBuf := true } :: rest }
  | .tagClose nm =>
      if nm = oe.tag then
        if oe.depth = 0 then
          if oe.rawCapture then
            attachNode { st with stack := rest }
              (finalizeElem
                { oe with
                  buffer := oe.buffer ++ renderToken (.tagClose nm),
                  hasBuf := true })
          else attachNode { st with stack := rest } (finalizeElem oe)
        else
          { st with stack :=
              { oe with
                depth := oe.depth - 1,
                buffer := oe.buffer ++ renderToken (.tagClose nm),
                hasBuf := true } :: rest }
      else
        { st with stack :=
            { oe with
              buffer := oe.buffer ++ renderToken (.tagClose nm),
              hasBuf := true } :: rest }
  | .text s =>
      { st with stack :=
          { oe with
            buffer := oe.buffer ++ s.data,
            hasBuf := true } :: rest }

/-- Pop open elements, attaching each to its parent, until the element
with the given tag (assumed present) has been popped. -/
def popThrough : PState → String → PState
  | .mk [] r ih hd ha, _ => .mk [] r ih hd ha
  | .mk (oe :: rest) r ih hd ha, nm =>
      if oe.tag = nm then attachNode (.mk rest r ih hd ha) (finalizeElem oe)
      else popThrough (attachNode (.mk rest r ih hd ha) (finalizeElem oe)) nm
termination_by st _ => st.stack.length
decreasing_by simp only [attachNode_stack_length, List.length_cons]; omega

/-- Modelled from the spec: stack-based recovery for closing tags — when
the closing tag does not match the top of the open-tag stack, the stack is
searched downward for a match; if found, that entry and all intervening
entries above it are closed; if not found, the stray closing tag is
ignored. -/
def closeStack (st : PState) (nm : String) : PState :=
  if st.stack.any (fun oe => oe.tag == nm) then popThrough st nm else st

/-- Push an unknown or misplaced tag as a raw passthrough capture. -/
def pushRawOpen (st : PState) (nm : String) (attrs : List (String × String)) : PState :=
  { st with stack :=
      ⟨.mjRaw, nm, [], [], renderToken (.tagOpen nm attrs), true, true, true, 0⟩ ::
        st.stack }

/-- Opening-tag dispatch on the recognized component kind: a recognized,
allowed tag opens a structural (or text-capturing) element; anything else
is coerced to a raw passthrough capture. -/
def openDispatch (st : PState) (nm : String) (attrs : List (String × String)) :
    Option MJType → PState
  | some ty =>
      if topAccepts st.stack ty then
        { st with stack :=
            ⟨ty, nm, mergeDefaults ty attrs, [], [], false,
             hasTextContent ty, false, 0⟩ :: st.stack }
      else pushRawOpen st nm attrs
  | none => pushRawOpen st nm attrs

/-- Self-closing-tag dispatch: a recognized, allowed tag attaches a
childless node; anything else attaches a raw passthrough node. -/
def selfDispatch (st : PState) (nm : String) (attrs : List (String × String)) :
    Option MJType → PState
  | some ty =>
      if topAccepts st.stack ty then
        attachNode st (.mk 0 ty (mergeDefaults ty attrs) [] none)
      else
        attachNode st (.mk 0 .mjRaw [] []
          (some (String.mk (renderToken (.tagSelfClose nm attrs)))))
  | none =>
      attachNode st (.mk 0 .mjRaw [] []
        (some (String.mk (renderToken (.tagSelfClose nm attrs)))))

/-- Non-whitespace text under a structural element: an implicit text child
where the schema allows one, dropped otherwise. -/
def textDispatch : PState → String → PState
  | .mk [] r ih hd ha, s =>
      attachNode (.mk [] r ih hd ha)
        (.mk 0 .mjText (mergeDefaults .mjText []) [] (some s))
  | .mk (oe :: rest) r ih hd ha, s =>
      if canContain oe.otype .mjText then
        attachNode (.mk (oe :: rest) r ih hd ha)
          (.mk 0 .mjText (mergeDefaults .mjText []) [] (some s))
      else .mk (oe :: rest) r ih hd ha

/-- Step of the machine outside head mode with a non-capturing top. -/
def stepMain (st : PState) (t : Token) : PState :=
  match t with
  | .tagOpen nm attrs =>
      if nm = "mj-head" then { st with inHead := true, headDepth := 0 }
      else openDispatch st nm attrs (tagToType nm)
  | .tagSelfClose nm attrs => selfDispatch st nm attrs (tagToType nm)
  | .tagClose nm => closeStack st nm
  | .text s =>
      if s.data.all Char.isWhitespace then st else textDispatch st s

/-- Step dispatch outside head mode. -/
def stepBody : PState → Token → PState
  | .mk [] r ih hd ha, t => stepMain (.mk [] r ih hd ha) t
  | .mk (oe :: rest) r ih hd ha, t =>
      if oe.capturing then stepCapture (.mk (oe :: rest) r ih hd ha) oe rest t
      else stepMain (.mk (oe :: rest) r ih hd ha) t

/-- One machine step. -/
def step (st : PState) (t : Token) : PState :=
  if st.inHead then stepHead st t else stepBody st t

/-- Run the machine over a token list. -/
def runTokens (st : PState) (ts : List Token) : PState := ts.foldl step st

/-- Close any elements left open at end of input implicitly. -/
def finishStack : PState → PState
  | .mk [] r ih hd ha => .mk [] r ih hd ha
  | .mk (oe :: rest) r ih hd ha =>
      finishStack (attachNode (.mk rest r ih hd ha) (finalizeElem oe))
termination_by st => st.stack.length
decreasing_by simp only [attachNode_stack_length, List.length_cons]; omega

def initPState : PState := ⟨[], [], false, 0, ⟨[], none, [], false⟩⟩

/-- Modelled from the spec: the identifier-free shape reconstructed by the
parser from markup text — a complete tree or a typed parse error. -/
def parseShape (s : String) : Except String (Option Node) :=
  (lexMain s.data).map
    (fun ts => (finishStack (runTokens initPState ts)).roots.head?)

/-- Modelled from the spec: `parseMjmlToNode(mjmlText)` — tolerant parser
from markup text to a document tree; returns a complete tree (or no tree
for empty input) or signals a typed parse error, and never mutates any
existing tree.  Every node receives a fresh id from the threaded
`generateId` counter (modelled as a fresh-id pass over the shape). -/
def parseMjmlToNode (s : String) (k : Nat) : Except String (Option Node × Nat) :=
  (parseShape s).map
    (fun r =>
      match r with
      | none => (none, k)
      | some sh =>
          let c := cloneDocumentWithNewIds sh k
          (some c.1, c.2))

/-- Modelled from the spec: `parseMjml` — as `parseMjmlToNode`, but also
extracts the head settings block separately from the body tree. -/
def parseMjml (s : String) (k : Nat) :
    Except String (Option Node × HeadSettings × Nat) :=
  (lexMain s.data).map
    (fun ts =>
      let fin := finishStack (runTokens initPState ts)
      let hs : HeadSettings := ⟨fin.head.fonts, fin.head.breakpoint, fin.head.attributesByTag⟩
      match fin.roots.head? with
      | none => (none, hs, k)
      | some sh =>
          let c := cloneDocumentWithNewIds sh k
          (some c.1, hs, c.2))

/-! ## The serializer -/

/-- Modelled from the spec: attributes whose value equals the schema
default are omitted by the serializer (the implementation choice taken
here); the parser's defaulting reconstructs them. -/
def nonDefaultProps (t : MJType) (props : List (String × String)) :
    List (String × String) :=
  props.filter (fun kv => !((defaultProps t).lookup kv.1 == some kv.2))

mutual

/-- Modelled from the spec: token stream emitted for one node — opening
tag with attributes in stable order, recursively the children, matching
end tag; a self-closing form for childless, content-less nodes. -/
def nodeTokens : Node → List Token
  | .mk _ t p _ (some s) =>
      if s.data.isEmpty then
        [.tagOpen (tagName t) (nonDefaultProps t p), .tagClose (tagName t)]
      else
        [.tagOpen (tagName t) (nonDefaultProps t p), .text s, .tagClose (tagName t)]
  | .mk _ t p children none =>
      if children.isEmpty then [.tagSelfClose (tagName t) (nonDefaultProps t p)]
      else
        .tagOpen (tagName t) (nonDefaultProps t p) ::
          (nodesTokens children ++ [.tagClose (tagName t)])

/-- Token stream of a forest. -/
def nodesTokens : List Node → List Token
  | [] => []
  | n :: ns => nodeTokens n ++ nodesTokens ns

end

/-- Modelled from the spec: `nodeToMjml(node, depth)` — markup emission of
one subtree (the depth parameter is purely cosmetic indentation and is not
emitted here, as it must not affect parse fidelity). -/
def nodeToMjml (n : Node) (_depth : Nat) : String :=
  String.mk (renderTokens (nodeTokens n))

/-- Token stream of the serialized head block. -/
def headTokens (H : HeadSettings) : List Token :=
  .tagOpen "mj-head" [] ::
    ((H.fonts.map (fun f => Token.tagSelfClose "mj-font" [("name", f.1), ("href", f.2)])) ++
     ((match H.breakpoint with
       | some w => [Token.tagSelfClose "mj-breakpoint" [("width", w)]]
       | none => []) ++
      ((if H.attributesByTag.isEmpty then []
        else .tagOpen "mj-attributes" [] ::
          (H.attributesByTag.map (fun ta => Token.tagSelfClose ta.1 ta.2) ++
           [Token.tagClose "mj-attributes"])) ++
       [Token.tagClose "mj-head"])))

/-- Token stream of the full document. -/
def docTokens (root : Node) (H : HeadSettings) : List Token :=
  .tagOpen "mjml" [] ::
    (headTokens H ++ (nodesTokens root.children ++ [.tagClose "mjml"]))

/-- Modelled from the spec: `generateMjml(documentRoot, headSettings)` —
wraps the body markup with the root envelope tag and a head block
serialized from the head settings. -/
def generateMjml (root : Node) (H : HeadSettings) : String :=
  String.mk (renderTokens (docTokens root H))

/-! ## Lexing the rendered markup recovers the tokens -/

theorem stringMk_data (s : String) : String.mk s.data = s := rfl

/-- Well-formed tag / attribute name: nonempty, made of name characters. -/
def nameOK (s : String) : Bool := !s.data.isEmpty && s.data.all isNameChar

/-- Attribute value safe for double-quoted rendering. -/
def attrValOK (v : String) : Bool := v.data.all (fun c => !(c = '"' : Bool))

def attrsOK (attrs : List (String × String)) : Bool :=
  attrs.all (fun kv => nameOK kv.1 && attrValOK kv.2)

/-- Text run producible by the tokenizer: nonempty, without tag openers. -/
def textOK (s : String) : Bool :=
  !s.data.isEmpty && s.data.all (fun c => !(c = '<' : Bool))

def tokenOK : Token → Bool
  | .tagOpen n attrs => nameOK n && attrsOK attrs
  | .tagSelfClose n attrs => nameOK n && attrsOK attrs
  | .tagClose n => nameOK n
  | .text s => textOK s

def isTextTok : Token → Bool
  | .text _ => true
  | _ => false

/-- Well-formed token list: tokens well formed, no two adjacent text runs. -/
def tokensOK : List Token → Bool
  | [] => true
  | [t] => tokenOK t
  | t :: t2 :: rest =>
      tokenOK t && !(isTextTok t && isTextTok t2) && tokensOK (t2 :: rest)

theorem nameChar_ne {c : Char} (h : isNameChar c = true) :
    c ≠ '>' ∧ c ≠ '/' ∧ c ≠ '=' ∧ c ≠ '<' := by
  refine ⟨?_, ?_, ?_, ?_⟩ <;> (intro e; subst e; exact absurd h (by decide))

theorem lexOpenName_append {cs : List Char} (nm rest : List Char)
    (h : cs.all isNameChar = true) :
    lexOpenName nm (cs ++ rest) = lexOpenName (nm ++ cs) rest := by
  induction cs generalizing nm with
  | nil => simp
  | cons c cs ih =>
    simp only [List.all_cons, Bool.and_eq_true] at h
    obtain ⟨h1, h2, h3, _⟩ := nameChar_ne h.1
    rw [List.cons_append, lexOpenName, if_neg h1, if_neg h2, if_pos h.1,
      ih (nm ++ [c]) h.2, List.append_assoc]
    rfl

theorem lexCloseName_append {cs : List Char} (nm rest : List Char)
    (h : cs.all isNameChar = true) :
    lexCloseName nm (cs ++ rest) = lexCloseName (nm ++ cs) rest := by
  induction cs generalizing nm with
  | nil => simp
  | cons c cs ih =>
    simp only [List.all_cons, Bool.and_eq_true] at h
    obtain ⟨h1, _, _, _⟩ := nameChar_ne h.1
    rw [List.cons_append, lexCloseName, if_neg h1, if_pos h.1,
      ih (nm ++ [c]) h.2, List.append_assoc]
    rfl

theorem lexAttrName_append {cs : List Char} (tag : String)
    (acc : List (String × String)) (nm rest : List Char)
    (h : cs.all isNameChar = true) :
    lexAttrName tag acc nm (cs ++ rest) = lexAttrName tag acc (nm ++ cs) rest := by
  induction cs generalizing nm with
  | nil => simp
  | cons c cs ih =>
    simp only [List.all_cons, Bool.and_eq_true] at h
    obtain ⟨h1, h2, h3, _⟩ := nameChar_ne h.1
    rw [List.cons_append, lexAttrName, if_neg h1, if_neg h2, if_neg h3, if_pos h.1,
      ih (nm ++ [c]) h.2, List.append_assoc]
    rfl

theorem lexAttrValue_append {cs : List Char} (tag : String)
    (acc : List (String × String)) (nm : List Char) (q : Char) (buf rest : List Char)
    (h : ∀ c ∈ cs, ¬(c = q)) :
    lexAttrValue tag acc nm q buf (cs ++ rest) =
      lexAttrValue tag acc nm q (buf ++ cs) rest := by
  induction cs generalizing buf with
  | nil => simp
  | cons c cs ih =>
    have h1 : ¬(c = q) := h c (by simp)
    rw [List.cons_append, lexAttrValue, if_neg h1,
      ih (buf ++ [c]) (fun d hd => h d (by simp [hd])), List.append_assoc]
    rfl

theorem lexTextAcc_append {cs : List Char} (buf rest : List Char)
    (h : ∀ c ∈ cs, ¬(c = '<')) :
    lexTextAcc buf (cs ++ rest) = lexTextAcc (buf ++ cs) rest := by
  induction cs generalizing buf with
  | nil => simp
  | cons c cs ih =>
    have h1 : ¬(c = '<') := h c (by simp)
    rw [List.cons_append, lexTextAcc, if_neg h1,
      ih (buf ++ [c]) (fun d hd => h d (by simp [hd])), List.append_assoc]
    rfl

/-- A space in the attribute region is skipped. -/
theorem lexAttrList_space (tag : String) (acc : List (String × String))
    (rest : List Char) :
    lexAttrList tag acc (' ' :: rest) = lexAttrList tag acc rest := by
  rw [lexAttrList, if_neg (by decide), if_neg (by decide), if_neg (by decide)]

/-- One rendered attribute is consumed by the attribute scanner. -/
theorem lexAttrList_entry (tag : String) (acc : List (String × String))
    (k v : String) (rest : List Char) (hk : nameOK k = true) (hv : attrValOK v = true) :
    lexAttrList tag acc (k.data ++ '=' :: '"' :: (v.data ++ '"' :: rest)) =
      lexAttrList tag (acc ++ [(k, v)]) rest := by
  simp only [nameOK, Bool.and_eq_true, Bool.not_eq_true'] at hk
  obtain ⟨hne, hall⟩ := hk
  match hd : k.data with
  | [] => rw [hd] at hne; exact absurd hne (by decide)
  | c :: cs =>
    rw [hd] at hall
    simp only [List.all_cons, Bool.and_eq_true] at hall
    obtain ⟨h1, h2, h3, _⟩ := nameChar_ne hall.1
    have hv2 : ∀ d ∈ v.data, ¬(d = '"') := by
      intro d hdm
      simp only [attrValOK, List.all_eq_true] at hv
      have := hv d hdm
      simpa using this
    rw [List.cons_append, lexAttrList, if_neg h1, if_neg h2, if_pos hall.1,
      lexAttrName_append tag acc [c] _ hall.2, List.singleton_append,
      lexAttrName, if_neg (by decide), if_neg (by decide), if_pos rfl,
      lexAttrEq, if_pos (by decide),
      lexAttrValue_append tag acc (c :: cs) '"' [] _ hv2, List.nil_append,
      lexAttrValue, if_pos rfl]
    have hk2 : String.mk (c :: cs) = k := by rw [← hd]
    rw [hk2, stringMk_data]

/-- The rendered attribute list is consumed by the attribute scanner. -/
theorem lexAttrList_render (attrs : List (String × String)) (tag : String)
    (acc : List (String × String)) (rest : List Char) (h : attrsOK attrs = true) :
    lexAttrList tag acc (renderAttrsChars attrs ++ rest) =
      lexAttrList tag (acc ++ attrs) rest := by
  induction attrs generalizing acc with
  | nil => simp [renderAttrsChars]
  | cons kv attrs ih =>
    simp only [attrsOK, List.all_cons, Bool.and_eq_true] at h
    obtain ⟨⟨hk, hv⟩, hrest⟩ := h
    match kv with
    | (k, v) =>
      rw [renderAttrsChars, List.cons_append, lexAttrList_space]
      rw [List.append_assoc]
      rw [show ('=' :: '"' :: (v.data ++ '"' :: renderAttrsChars attrs)) ++ rest =
        '=' :: '"' :: (v.data ++ '"' :: (renderAttrsChars attrs ++ rest)) by simp]
      rw [lexAttrList_entry tag acc k v _ hk hv]
      rw [ih (acc ++ [(k, v)]) (by simpa [attrsOK] using hrest)]
      simp

theorem lexMain_nil : lexMain [] = .ok [] := by
  rw [lexMain.eq_def]

theorem lexMain_cons (c : Char) (rest : List Char) :
    lexMain (c :: rest) = if c = '<' then lexLt rest else lexTextAcc [c] rest := by
  rw [lexMain.eq_def]

theorem lexAttrList_gt (tag : String) (acc : List (String × String)) (rest : List Char) :
    lexAttrList tag acc ('>' :: rest) =
      (lexMain rest).map (fun ts => .tagOpen tag acc :: ts) := by
  rw [lexAttrList, if_pos rfl]

theorem lexAttrList_slashGt (tag : String) (acc : List (String × String))
    (rest : List Char) :
    lexAttrList tag acc ('/' :: '>' :: rest) =
      (lexMain rest).map (fun ts => .tagSelfClose tag acc :: ts) := by
  rw [lexAttrList, if_neg (by decide), if_pos rfl, lexAfterSlash, if_pos rfl]

theorem lexOpenName_space (nm : List Char) (rest : List Char) :
    lexOpenName nm (' ' :: rest) = lexAttrList (String.mk nm) [] rest := by
  rw [lexOpenName, if_neg (by decide), if_neg (by decide), if_neg (by decide)]

/-- Lexing the rendering of a non-text token consumes exactly that token. -/
theorem lexMain_tag (t : Token) (rest : List Char) (h : tokenOK t = true)
    (ht : isTextTok t = false) :
    lexMain (renderToken t ++ rest) = (lexMain rest).map (fun ts => t :: ts) := by
  match t with
  | .text s => simp [isTextTok] at ht
  | .tagClose n =>
    simp only [tokenOK, nameOK, Bool.and_eq_true, Bool.not_eq_true'] at h
    obtain ⟨hne, hall⟩ := h
    simp only [renderToken, List.cons_append, List.append_assoc,
      List.singleton_append, List.nil_append]
    rw [lexMain, if_pos rfl, lexLt, if_pos rfl,
      lexCloseName_append [] _ hall, List.nil_append, lexCloseName, if_pos rfl,
      stringMk_data]
  | .tagOpen n attrs =>
    simp only [tokenOK, nameOK, Bool.and_eq_true, Bool.not_eq_true'] at h
    obtain ⟨⟨hne, hall⟩, hattrs⟩ := h
    match hd : n.data with
    | [] => rw [hd] at hne; exact absurd hne (by decide)
    | c :: cs =>
      rw [hd] at hall
      simp only [List.all_cons, Bool.and_eq_true] at hall
      obtain ⟨h1, h2, _, _⟩ := nameChar_ne hall.1
      simp only [renderToken, hd, List.cons_append, List.append_assoc,
        List.singleton_append, List.nil_append]
      rw [lexMain, if_pos rfl, lexLt, if_neg h2, if_pos hall.1,
        lexOpenName_append [c] _ hall.2, List.singleton_append]
      have hmk : String.mk (c :: cs) = n := by rw [← hd]
      match attrs with
      | [] =>
        rw [renderAttrsChars, List.nil_append, lexOpenName, if_pos rfl, hmk]
      | (k, v) :: as =>
        simp only [attrsOK, List.all_cons, Bool.and_eq_true] at hattrs
        obtain ⟨⟨hk, hv⟩, has⟩ := hattrs
        rw [renderAttrsChars, List.cons_append, lexOpenName_space, hmk]
        simp only [List.append_assoc, List.cons_append, List.nil_append]
        rw [lexAttrList_entry n [] k v _ hk hv, List.nil_append,
          lexAttrList_render as n [(k, v)] _ (by simpa [attrsOK] using has),
          List.singleton_append, lexAttrList_gt]
  | .tagSelfClose n attrs =>
    simp only [tokenOK, nameOK, Bool.and_eq_true, Bool.not_eq_true'] at h
    obtain ⟨⟨hne, hall⟩, hattrs⟩ := h
    match hd : n.data with
    | [] => rw [hd] at hne; exact absurd hne (by decide)
    | c :: cs =>
      rw [hd] at hall
      simp only [List.all_cons, Bool.and_eq_true] at hall
      obtain ⟨h1, h2, _, _⟩ := nameChar_ne hall.1
      simp only [renderToken, hd, List.cons_append, List.append_assoc,
        List.singleton_append, List.nil_append]
      rw [lexMain, if_pos rfl, lexLt, if_neg h2, if_pos hall.1,
        lexOpenName_append [c] _ hall.2, List.singleton_append]
      have hmk : String.mk (c :: cs) = n := by rw [← hd]
      match attrs with
      | [] =>
        rw [renderAttrsChars, List.nil_append, lexOpenName_space, lexAttrList_slashGt,
          hmk]
      | (k, v) :: as =>
        simp only [attrsOK, List.all_cons, Bool.and_eq_true] at hattrs
        obtain ⟨⟨hk, hv⟩, has⟩ := hattrs
        rw [renderAttrsChars, List.cons_append, lexOpenName_space, hmk]
        simp only [List.append_assoc, List.cons_append, List.nil_append]
        rw [lexAttrList_entry n [] k v _ hk hv, List.nil_append,
          lexAttrList_render as n [(k, v)] _ (by simpa [attrsOK] using has),
          List.singleton_append, lexAttrList_space, lexAttrList_slashGt]

/-- A text run hands control back to the main lexer at the next tag. -/
theorem lexTextAcc_handoff (buf : List Char) (t : Token) (X : List Char)
    (h : tokenOK t = true) (ht : isTextTok t = false) :
    lexTextAcc buf (renderToken t ++ X) =
      (lexMain (renderToken t ++ X)).map (fun ts => .text (String.mk buf) :: ts) := by
  match t with
  | .text s => simp [isTextTok] at ht
  | .tagClose n =>
    simp only [renderToken, List.cons_append, List.append_assoc,
      List.singleton_append, List.nil_append]
    rw [lexTextAcc, if_pos rfl, lexTextLt, if_pos rfl,
      lexMain, if_pos rfl, lexLt, if_pos rfl]
  | .tagOpen n attrs =>
    simp only [tokenOK, nameOK, Bool.and_eq_true, Bool.not_eq_true'] at h
    obtain ⟨⟨hne, hall⟩, _⟩ := h
    match hd : n.data with
    | [] => rw [hd] at hne; exact absurd hne (by decide)
    | c :: cs =>
      rw [hd] at hall
      simp only [List.all_cons, Bool.and_eq_true] at hall
      obtain ⟨_, h2, _, _⟩ := nameChar_ne hall.1
      simp only [renderToken, hd, List.cons_append, List.append_assoc,
        List.singleton_append, List.nil_append]
      rw [lexTextAcc, if_pos rfl, lexTextLt, if_neg h2, if_pos hall.1,
        lexMain, if_pos rfl, lexLt, if_neg h2, if_pos hall.1]
  | .tagSelfClose n attrs =>
    simp only [tokenOK, nameOK, Bool.and_eq_true, Bool.not_eq_true'] at h
    obtain ⟨⟨hne, hall⟩, _⟩ := h
    match hd : n.data with
    | [] => rw [hd] at hne; exact absurd hne (by decide)
    | c :: cs =>
      rw [hd] at hall
      simp only [List.all_cons, Bool.and_eq_true] at hall
      obtain ⟨_, h2, _, _⟩ := nameChar_ne hall.1
      simp only [renderToken, hd, List.cons_append, List.append_assoc,
        List.singleton_append, List.nil_append]
      rw [lexTextAcc, if_pos rfl, lexTextLt, if_neg h2, if_pos hall.1,
        lexMain, if_pos rfl, lexLt, if_neg h2, if_pos hall.1]

/-- Lexing a rendered text run followed by tag tokens consumes the run. -/
theorem lexMain_renderText (s : String) (ts : List Token) (hs : textOK s = true)
    (hts : ts = [] ∨ ∃ t ts2, ts = t :: ts2 ∧ isTextTok t = false ∧ tokenOK t = true) :
    lexMain (s.data ++ renderTokens ts) =
      (lexMain (renderTokens ts)).map (fun r => .text s :: r) := by
  simp only [textOK, Bool.and_eq_true, Bool.not_eq_true'] at hs
  obtain ⟨hne, hall⟩ := hs
  match hd : s.data with
  | [] => rw [hd] at hne; exact absurd hne (by decide)
  | c :: cs =>
    rw [hd] at hall
    simp only [List.all_cons, Bool.and_eq_true] at hall
    have hc : ¬(c = '<') := by
      intro e
      rw [e] at hall
      exact absurd hall.1 (by decide)
    have hcs : ∀ d ∈ cs, ¬(d = '<') := by
      intro d hdm e
      have := List.all_eq_true.mp hall.2 d hdm
      rw [e] at this
      exact absurd this (by decide)
    rw [List.cons_append, lexMain_cons, if_neg hc,
      lexTextAcc_append [c] _ hcs, List.singleton_append]
    have hmk : String.mk (c :: cs) = s := by rw [← hd]
    match hts with
    | .inl hnil =>
      rw [hnil, show renderTokens [] = [] from rfl, lexTextAcc,
        hmk, lexMain_nil]
      rfl
    | .inr ⟨t, ts2, hcons, htx, htok⟩ =>
      rw [hcons, show renderTokens (t :: ts2) = renderToken t ++ renderTokens ts2
        from rfl, lexTextAcc_handoff _ t _ htok htx, hmk]

theorem tokensOK_parts {t : Token} {ts : List Token} (h : tokensOK (t :: ts) = true) :
    tokenOK t = true ∧ tokensOK ts = true ∧
      (∀ t2 ts2, ts = t2 :: ts2 → (isTextTok t && isTextTok t2) = false) := by
  match ts with
  | [] =>
    refine ⟨by simpa [tokensOK] using h, rfl, ?_⟩
    intro t2 ts2 he
    exact absurd he (by simp)
  | t2 :: ts2 =>
    simp only [tokensOK, Bool.and_eq_true, Bool.not_eq_true'] at h
    obtain ⟨⟨h1, h2⟩, h3⟩ := h
    exact ⟨h1, h3, fun t2x ts2x he => by
      injection he with he1 he2
      rw [← he1]
      exact h2⟩

/-- Tokenizing the canonical rendering of a well-formed token list yields
exactly that token list back. -/
theorem lexMain_renderTokens (ts : List Token) (h : tokensOK ts = true) :
    lexMain (renderTokens ts) = .ok ts := by
  induction ts with
  | nil => rw [show renderTokens [] = [] from rfl, lexMain_nil]
  | cons t ts ih =>
    obtain ⟨h1, h2, h3⟩ := tokensOK_parts h
    rw [show renderTokens (t :: ts) = renderToken t ++ renderTokens ts from rfl]
    match he : isTextTok t with
    | false =>
      rw [lexMain_tag t _ h1 he, ih h2]
      rfl
    | true =>
      match t, he with
      | .text s, _ =>
        have hts : ts = [] ∨ ∃ t2 ts2, ts = t2 :: ts2 ∧ isTextTok t2 = false ∧
            tokenOK t2 = true := by
          match ts with
          | [] => exact .inl rfl
          | t2 :: ts2 =>
            refine .inr ⟨t2, ts2, rfl, ?_, (tokensOK_parts h2).1⟩
            have := h3 t2 ts2 rfl
            simp only [isTextTok, Bool.true_and] at this
            exact this
        rw [show renderToken (.text s) = s.data from rfl,
          lexMain_renderText s ts h1 hts, ih h2]
        rfl

/-! ## Schema-default trees and attribute defaulting -/

/-- Key-by-key alignment of an attribute bag with the schema defaults:
same keys in the same order (values arbitrary). -/
def keysAligned : List (String × String) → List (String × String) → Bool
  | [], [] => true
  | (k, _) :: p, (k2, _) :: d => k == k2 && keysAligned p d
  | _, _ => false

mutual

/-- Modelled from the spec: a tree "built only from schema-default
constructions" — every node carries exactly the schema-declared attribute
keys (with serializer-safe values), the schema default content, and
children allowed by the containment rules (empty for leaf types). -/
def schemaDefaultNode : Node → Bool
  | .mk _ t p children c =>
      keysAligned p (defaultProps t) &&
      p.all (fun kv => attrValOK kv.2) &&
      (c == defaultContent t) &&
      (if acceptsChildren t then schemaDefaultChildren t children
       else children.isEmpty)

/-- Schema-default forest under a parent type. -/
def schemaDefaultChildren (t : MJType) : List Node → Bool
  | [] => true
  | n :: ns => canContain t n.type && schemaDefaultNode n && schemaDefaultChildren t ns

end

theorem lookup_cons_self {l : List (String × String)} {k v2 : String} :
    ((k, v2) :: l).lookup k = some v2 := by
  simp [List.lookup]

theorem lookup_cons_ne {l : List (String × String)} {k k2 v2 : String}
    (h : ¬(k = k2)) : ((k2, v2) :: l).lookup k = l.lookup k := by
  simp only [List.lookup]
  rw [show (k == k2) = false by simpa using h]

theorem keysAligned_keys {p d : List (String × String)}
    (h : keysAligned p d = true) : p.map Prod.fst = d.map Prod.fst := by
  induction p generalizing d with
  | nil => match d with
    | [] => rfl
    | _ :: _ => simp [keysAligned] at h
  | cons kv p ih =>
    match d with
    | [] => exact absurd h (by cases kv; simp [keysAligned])
    | kv2 :: d =>
      match kv, kv2 with
      | (k, v), (k2, v2) =>
        simp only [keysAligned, Bool.and_eq_true, beq_iff_eq] at h
        simp [h.1, ih h.2]

theorem keysAligned_nil {p : List (String × String)}
    (h : keysAligned p [] = true) : p = [] := by
  match p with
  | [] => rfl
  | kv :: p => exact absurd h (by cases kv; simp [keysAligned])

theorem lookup_eq_some_of_nodup {l : List (String × String)} {k v : String}
    (hmem : (k, v) ∈ l) (hnd : (l.map Prod.fst).Nodup) : l.lookup k = some v := by
  induction l with
  | nil => simp at hmem
  | cons kv l ih =>
    match kv with
    | (k2, v2) =>
      simp only [List.map_cons, List.nodup_cons] at hnd
      rcases List.mem_cons.mp hmem with he | hm
      · injection he with he1 he2
        subst he1
        subst he2
        exact lookup_cons_self
      · have hk : ¬(k = k2) := by
          intro e
          subst e
          exact hnd.1 (List.mem_map.mpr ⟨(k, v), hm, rfl⟩)
        rw [lookup_cons_ne hk]
        exact ih hm hnd.2

theorem lookup_eq_none_of_not_mem {l : List (String × String)} {k : String}
    (h : ¬ k ∈ l.map Prod.fst) : l.lookup k = none := by
  induction l with
  | nil => rfl
  | cons kv l ih =>
    match kv with
    | (k2, v2) =>
      simp only [List.map_cons, List.mem_cons, not_or] at h
      rw [lookup_cons_ne h.1]
      exact ih h.2

theorem lookup_isSome_of_mem_keys {l : List (String × String)} {k : String}
    (h : k ∈ l.map Prod.fst) : (l.lookup k).isSome = true := by
  induction l with
  | nil => simp at h
  | cons kv l ih =>
    match kv with
    | (k2, v2) =>
      by_cases he : k = k2
      · subst he
        rw [lookup_cons_self]
        rfl
      · rw [lookup_cons_ne he]
        simp only [List.map_cons, List.mem_cons] at h
        exact ih (h.resolve_left he)

/-- The omission filter ignores a default entry whose key is absent. -/
theorem filter_lookup_cons {p : List (String × String)} {k δ : String}
    {d : List (String × String)} (h : ∀ kv ∈ p, ¬(kv.1 = k)) :
    p.filter (fun kv => !(((k, δ) :: d).lookup kv.1 == some kv.2)) =
      p.filter (fun kv => !(d.lookup kv.1 == some kv.2)) := by
  apply List.filter_congr
  intro kv hkv
  rw [lookup_cons_ne (h kv hkv)]

/-- Serializer omission followed by parser defaulting is the identity on
key-aligned attribute bags (generic core). -/
theorem merge_map_aligned (p d : List (String × String))
    (ha : keysAligned p d = true) (hnd : (d.map Prod.fst).Nodup) :
    d.map (fun kv =>
      (kv.1, (((p.filter (fun kv2 => !(d.lookup kv2.1 == some kv2.2))).lookup kv.1).getD
        kv.2))) = p := by
  induction d generalizing p with
  | nil => simp [keysAligned_nil ha]
  | cons kv d ih =>
    match kv with
    | (k, δ) =>
      match p with
      | [] => exact absurd ha (by simp [keysAligned])
      | (k2, v) :: p2 =>
        simp only [keysAligned, Bool.and_eq_true, beq_iff_eq] at ha
        obtain ⟨hke, hal⟩ := ha
        subst hke
        simp only [List.map_cons, List.nodup_cons] at hnd
        have hp2k : ∀ kv2 ∈ p2, ¬(kv2.1 = k2) := by
          intro kv2 hm e
          have hkeys := keysAligned_keys hal
          have : kv2.1 ∈ d.map Prod.fst := by
            rw [← hkeys]
            exact List.mem_map.mpr ⟨kv2, hm, rfl⟩
          rw [e] at this
          exact hnd.1 this
        by_cases hvδ : v = δ
        · subst hvδ
          rw [show ((k2, v) :: p2).filter
              (fun kv2 => !((((k2, v) :: d).lookup kv2.1) == some kv2.2)) =
              p2.filter (fun kv2 => !((d.lookup kv2.1) == some kv2.2)) by
            rw [List.filter_cons]
            have hb : ((((k2, v) :: d).lookup k2) == some v) = true := by
              rw [lookup_cons_self]
              exact beq_self_eq_true _
            rw [hb]
            simp only [Bool.not_true, Bool.false_eq_true, if_false]
            exact filter_lookup_cons hp2k]
          rw [List.map_cons]
          have h1 : ((p2.filter
              (fun kv2 => !((d.lookup kv2.1) == some kv2.2))).lookup k2) = none := by
            apply lookup_eq_none_of_not_mem
            intro hm
            obtain ⟨kv2, hm2, he⟩ := List.mem_map.mp hm
            exact hp2k kv2 (List.mem_of_mem_filter hm2) he
          rw [h1]
          simp only [Option.getD_none]
          congr 1
          exact ih p2 hal hnd.2
        · rw [show ((k2, v) :: p2).filter
              (fun kv2 => !((((k2, δ) :: d).lookup kv2.1) == some kv2.2)) =
              (k2, v) :: p2.filter (fun kv2 => !((d.lookup kv2.1) == some kv2.2)) by
            rw [List.filter_cons]
            have hb : ((((k2, δ) :: d).lookup k2) == some v) = false := by
              rw [lookup_cons_self]
              simp only [beq_eq_false_iff_ne, ne_eq, Option.some.injEq]
              exact fun e => hvδ e.symm
            rw [hb]
            simp only [Bool.not_false, if_true]
            rw [filter_lookup_cons hp2k]]
          rw [List.map_cons]
          have h1 : (((k2, v) :: p2.filter
              (fun kv2 => !((d.lookup kv2.1) == some kv2.2))).lookup k2) = some v :=
            lookup_cons_self
          rw [h1]
          simp only [Option.getD_some]
          congr 1
          have hmc : List.map
              (fun kv =>
                (kv.1, ((((k2, v) :: p2.filter
                  (fun kv2 => !((d.lookup kv2.1) == some kv2.2))).lookup kv.1).getD
                  kv.2))) d =
              List.map (fun kv =>
                (kv.1, (((p2.filter
                  (fun kv2 => !((d.lookup kv2.1) == some kv2.2))).lookup kv.1).getD
                  kv.2))) d := by
            apply List.map_congr_left
            intro kv2 hm
            have hk2 : ¬(kv2.1 = k2) := by
              intro e
              exact hnd.1 (by rw [← e]; exact List.mem_map.mpr ⟨kv2, hm, rfl⟩)
            rw [lookup_cons_ne hk2]
          rw [hmc]
          exact ih p2 hal hnd.2

/-! ## Facts about the modelled schema -/

theorem defaultProps_keys_nodup (t : MJType) :
    ((defaultProps t).map Prod.fst).Nodup := by
  cases t <;> decide

theorem defaultProps_names_ok (t : MJType) :
    ((defaultProps t).map Prod.fst).all nameOK = true := by
  cases t <;> decide

theorem tagName_ok (t : MJType) : nameOK (tagName t) = true := by
  cases t <;> decide

theorem tagName_ne_mjhead (t : MJType) : ¬(tagName t = "mj-head") := by
  cases t <;> decide

theorem defaultContent_textOK (t : MJType) :
    (defaultContent t).all textOK = true := by
  cases t <;> decide

theorem defaultContent_hasText (t : MJType) :
    (defaultContent t).isSome = true → hasTextContent t = true := by
  cases t <;> decide

theorem acceptsChildren_noText (t : MJType) :
    acceptsChildren t = true → hasTextContent t = false := by
  cases t <;> decide

theorem hasText_noChildren (t : MJType) :
    hasTextContent t = true → acceptsChildren t = false := by
  cases t <;> decide

theorem mergeDefaults_nonDefault (t : MJType) (p : List (String × String))
    (ha : keysAligned p (defaultProps t) = true) :
    mergeDefaults t (nonDefaultProps t p) = p := by
  unfold mergeDefaults nonDefaultProps
  have h2 : ((p.filter (fun kv => !((defaultProps t).lookup kv.1 == some kv.2))).filter
      (fun kv => ((defaultProps t).lookup kv.1).isNone)) = [] := by
    rw [List.filter_eq_nil_iff]
    intro kv hm
    have hmem : kv ∈ p := List.mem_of_mem_filter hm
    have hk : kv.1 ∈ (defaultProps t).map Prod.fst := by
      rw [← keysAligned_keys ha]
      exact List.mem_map.mpr ⟨kv, hmem, rfl⟩
    have hs := lookup_isSome_of_mem_keys hk
    cases h3 : (defaultProps t).lookup kv.1 with
    | none => rw [h3] at hs; exact absurd hs (by decide)
    | some x => simp
  rw [h2, List.append_nil]
  exact merge_map_aligned p (defaultProps t) ha (defaultProps_keys_nodup t)

theorem nonDefaultProps_ok (t : MJType) (p : List (String × String))
    (ha : keysAligned p (defaultProps t) = true)
    (hv : p.all (fun kv => attrValOK kv.2) = true) :
    attrsOK (nonDefaultProps t p) = true := by
  rw [attrsOK, List.all_eq_true]
  intro kv hm
  have hmem : kv ∈ p := List.mem_of_mem_filter hm
  rw [Bool.and_eq_true]
  constructor
  · have hk : kv.1 ∈ (defaultProps t).map Prod.fst := by
      rw [← keysAligned_keys ha]
      exact List.mem_map.mpr ⟨kv, hmem, rfl⟩
    exact List.all_eq_true.mp (defaultProps_names_ok t) kv.1 hk
  · exact List.all_eq_true.mp hv kv hmem

/-! ## Well-formedness of the emitted token streams -/

def firstNotText : List Token → Bool
  | [] => true
  | t :: _ => !isTextTok t

theorem tokensOK_cons_of {t : Token} {ts : List Token} (h1 : tokenOK t = true)
    (h2 : tokensOK ts = true) (h3 : isTextTok t = false) :
    tokensOK (t :: ts) = true := by
  match ts with
  | [] => simpa [tokensOK] using h1
  | t2 :: ts2 => simp [tokensOK, h1, h2, h3]

theorem tokensOK_cons_text {s : String} {ts : List Token} (h1 : textOK s = true)
    (h2 : tokensOK ts = true) (h3 : firstNotText ts = true) :
    tokensOK (.text s :: ts) = true := by
  match ts with
  | [] => simpa [tokensOK, tokenOK] using h1
  | t2 :: ts2 =>
    simp only [firstNotText, Bool.not_eq_true'] at h3
    simp [tokensOK, tokenOK, h1, h2, h3]

theorem tokensOK_append {xs ys : List Token} (hx : tokensOK xs = true)
    (hy : tokensOK ys = true) (hf : firstNotText ys = true) :
    tokensOK (xs ++ ys) = true := by
  induction xs with
  | nil => simpa
  | cons x xs ih =>
    match xs with
    | [] =>
      match hxt : isTextTok x with
      | false => exact tokensOK_cons_of (by simpa [tokensOK] using hx) hy hxt
      | true =>
        match x, hxt with
        | .text s, _ =>
          exact tokensOK_cons_text (by simpa [tokensOK, tokenOK] using hx) hy hf
    | x2 :: xs2 =>
      obtain ⟨h1, h2, h3⟩ := tokensOK_parts hx
      have hih := ih h2
      simp only [List.cons_append] at hih ⊢
      simp [tokensOK, h1, hih, h3 x2 xs2 rfl]

theorem firstNotText_append {xs ys : List Token} (hx : firstNotText xs = true)
    (hy : firstNotText ys = true) : firstNotText (xs ++ ys) = true := by
  match xs with
  | [] => simpa
  | x :: xs => simpa [firstNotText] using hx

theorem schemaDefaultChildren_mem {t : MJType} {ns : List Node}
    (h : schemaDefaultChildren t ns = true) :
    ∀ n ∈ ns, canContain t n.type = true ∧ schemaDefaultNode n = true := by
  induction ns with
  | nil => intro n hn; simp at hn
  | cons n2 ns ih =>
    intro n hn
    rw [schemaDefaultChildren] at h
    simp only [Bool.and_eq_true] at h
    rcases List.mem_cons.mp hn with he | hm
    · subst he
      exact ⟨h.1.1, h.1.2⟩
    · exact ih h.2 n hm

theorem schemaDefault_parts {i : Nat} {t : MJType} {p : List (String × String)}
    {children : List Node} {c : Option String}
    (h : schemaDefaultNode (.mk i t p children c) = true) :
    keysAligned p (defaultProps t) = true ∧
    p.all (fun kv => attrValOK kv.2) = true ∧
    c = defaultContent t ∧
    (if acceptsChildren t then schemaDefaultChildren t children = true
     else children = []) := by
  rw [schemaDefaultNode] at h
  simp only [Bool.and_eq_true, beq_iff_eq] at h
  obtain ⟨⟨⟨ha, hv⟩, hc⟩, hch⟩ := h
  refine ⟨ha, hv, hc, ?_⟩
  by_cases hac : acceptsChildren t = true
  · rw [if_pos hac]
    rw [if_pos hac] at hch
    exact hch
  · rw [if_neg hac]
    rw [if_neg hac] at hch
    exact List.isEmpty_iff.mp hch

mutual

theorem nodeTokens_ok (n : Node) (h : schemaDefaultNode n = true) :
    tokensOK (nodeTokens n) = true := by
  match n with
  | .mk i t p children (some str) =>
    obtain ⟨ha, hv, hc, hch⟩ := schemaDefault_parts h
    have hopen : tokenOK (.tagOpen (tagName t) (nonDefaultProps t p)) = true := by
      simp [tokenOK, tagName_ok, nonDefaultProps_ok t p ha hv]
    have hclose : tokensOK [Token.tagClose (tagName t)] = true := by
      simp [tokensOK, tokenOK, tagName_ok]
    have hstr : textOK str = true := by
      have h2 := defaultContent_textOK t
      rw [← hc] at h2
      simpa [Option.all] using h2
    have hne : str.data.isEmpty = false := by
      simp only [textOK, Bool.and_eq_true, Bool.not_eq_true'] at hstr
      exact hstr.1
    rw [nodeTokens]
    simp only [hne, Bool.false_eq_true, if_false]
    exact tokensOK_cons_of hopen
      (tokensOK_cons_text hstr hclose (by simp [firstNotText, isTextTok])) rfl
  | .mk i t p children none =>
    obtain ⟨ha, hv, hc, hch⟩ := schemaDefault_parts h
    have hopen : tokenOK (.tagOpen (tagName t) (nonDefaultProps t p)) = true := by
      simp [tokenOK, tagName_ok, nonDefaultProps_ok t p ha hv]
    have hself : tokenOK (.tagSelfClose (tagName t) (nonDefaultProps t p)) = true := by
      simp [tokenOK, tagName_ok, nonDefaultProps_ok t p ha hv]
    have hclose : tokensOK [Token.tagClose (tagName t)] = true := by
      simp [tokensOK, tokenOK, tagName_ok]
    rw [nodeTokens]
    match hemp : children.isEmpty with
    | true =>
      simp only [if_true]
      simpa [tokensOK] using hself
    | false =>
      simp only [Bool.false_eq_true, if_false]
      have hacc : acceptsChildren t = true := by
        by_contra hn2
        rw [if_neg hn2] at hch
        rw [hch] at hemp
        simp at hemp
      rw [if_pos hacc] at hch
      have hmem := schemaDefaultChildren_mem hch
      refine tokensOK_cons_of hopen ?_ rfl
      exact tokensOK_append (nodesTokens_ok children (fun n2 hn2 => (hmem n2 hn2).2))
        hclose (by simp [firstNotText, isTextTok])

theorem nodesTokens_ok (ns : List Node) (h : ∀ n ∈ ns, schemaDefaultNode n = true) :
    tokensOK (nodesTokens ns) = true := by
  match ns with
  | [] => rfl
  | n :: ns =>
    rw [nodesTokens]
    exact tokensOK_append (nodeTokens_ok n (h n (by simp)))
      (nodesTokens_ok ns (fun n2 hn2 => h n2 (by simp [hn2])))
      (nodesTokens_first ns)

theorem nodeTokens_first (n : Node) : firstNotText (nodeTokens n) = true := by
  match n with
  | .mk i t p children (some str) =>
    rw [nodeTokens]
    by_cases hs : str.data.isEmpty = true <;> simp [hs, firstNotText, isTextTok]
  | .mk i t p children none =>
    rw [nodeTokens]
    by_cases hs : children.isEmpty = true <;> simp [hs, firstNotText, isTextTok]

theorem nodesTokens_first (ns : List Node) : firstNotText (nodesTokens ns) = true := by
  match ns with
  | [] => rfl
  | n :: ns =>
    rw [nodesTokens]
    exact firstNotText_append (nodeTokens_first n) (nodesTokens_first ns)

end

/-! ## Running the machine over emitted tokens -/

def topNotCapturing : List OpenElem → Bool
  | [] => true
  | oe :: _ => !oe.capturing

/-- Attach a list of completed nodes in order. -/
def attachList (st : PState) (cs : List Node) : PState := cs.foldl attachNode st

theorem attachNode_inHead (st : PState) (c : Node) :
    (attachNode st c).inHead = st.inHead := by
  unfold attachNode
  match st with
  | .mk [] r ih hd h => rfl
  | .mk (oe :: rest) r ih hd h => rfl

theorem attachNode_notCapturing (st : PState) (c : Node) :
    topNotCapturing (attachNode st c).stack = topNotCapturing st.stack := by
  unfold attachNode
  match st with
  | .mk [] r ih hd h => rfl
  | .mk (oe :: rest) r ih hd h => rfl

theorem attachNode_topAccepts (st : PState) (c : Node) (ty : MJType) :
    topAccepts (attachNode st c).stack ty = topAccepts st.stack ty := by
  unfold attachNode
  match st with
  | .mk [] r ih hd h => rfl
  | .mk (oe :: rest) r ih hd h => rfl

theorem attachList_cons_stack (oe : OpenElem) (rest : List OpenElem)
    (r : List Node) (ih : Bool) (hd : Nat) (ha : HeadAcc) (cs : List Node) :
    attachList (.mk (oe :: rest) r ih hd ha) cs =
      .mk ({ oe with children := oe.children ++ cs } :: rest) r ih hd ha := by
  induction cs generalizing oe with
  | nil => simp [attachList]
  | cons c cs ihx =>
    rw [show attachList (PState.mk (oe :: rest) r ih hd ha) (c :: cs) =
      attachList (attachNode (PState.mk (oe :: rest) r ih hd ha) c) cs from rfl]
    rw [show attachNode (PState.mk (oe :: rest) r ih hd ha) c =
      PState.mk ({ oe with children := oe.children ++ [c] } :: rest) r ih hd ha from rfl]
    rw [ihx]
    simp

theorem step_notCapturing (st : PState) (t : Token) (hh : st.inHead = false)
    (hcap : topNotCapturing st.stack = true) : step st t = stepMain st t := by
  match st with
  | .mk [] r ihx hd ha => rw [step, if_neg (by simp_all), stepBody]
  | .mk (oe :: rest) r ihx hd ha =>
    simp only [topNotCapturing, Bool.not_eq_true'] at hcap
    rw [step, if_neg (by simp_all), stepBody, if_neg (by simp_all)]

theorem step_capturing (st : PState) (oe : OpenElem) (rest : List OpenElem)
    (t : Token) (hh : st.inHead = false) (hst : st.stack = oe :: rest)
    (hcap : oe.capturing = true) : step st t = stepCapture st oe rest t := by
  match st with
  | .mk stk r ihx hd ha =>
    simp only at hst
    subst hst
    rw [step, if_neg (by simp_all), stepBody, if_pos hcap]

theorem stepMain_open_known (st : PState) (ty : MJType)
    (attrs : List (String × String)) (hacc : topAccepts st.stack ty = true) :
    stepMain st (.tagOpen (tagName ty) attrs) =
      { st with stack := ⟨ty, tagName ty, mergeDefaults ty attrs, [], [], false,
        hasTextContent ty, false, 0⟩ :: st.stack } := by
  rw [stepMain, if_neg (tagName_ne_mjhead ty), tagToType_tagName, openDispatch,
    if_pos hacc]

theorem stepMain_selfClose_known (st : PState) (ty : MJType)
    (attrs : List (String × String)) (hacc : topAccepts st.stack ty = true) :
    stepMain st (.tagSelfClose (tagName ty) attrs) =
      attachNode st (.mk 0 ty (mergeDefaults ty attrs) [] none) := by
  rw [stepMain, tagToType_tagName, selfDispatch, if_pos hacc]

theorem closeStack_top_match (st : PState) (oe : OpenElem) (rest : List OpenElem)
    (nm : String) (hst : st.stack = oe :: rest) (hm : oe.tag = nm) :
    closeStack st nm = attachNode { st with stack := rest } (finalizeElem oe) := by
  match st with
  | .mk stk r ihx hd ha =>
    simp only at hst
    subst hst
    unfold closeStack
    rw [if_pos (by simp [List.any_cons, hm]), popThrough, if_pos hm]

theorem finalizeElem_plain (ty : MJType) (tag : String)
    (props : List (String × String)) (children : List Node) (buffer : List Char)
    (hasBuf capturing : Bool) (depth : Nat) :
    finalizeElem ⟨ty, tag, props, children, buffer, hasBuf, capturing, false, depth⟩ =
      .mk 0 ty props children
        (if hasBuf then some (String.mk buffer) else none) := by
  rw [finalizeElem, if_neg (by simp)]

theorem runTokens_nil (st : PState) : runTokens st [] = st := rfl

theorem runTokens_cons (st : PState) (t : Token) (l : List Token) :
    runTokens st (t :: l) = runTokens (step st t) l := rfl

theorem runTokens_append (st : PState) (l1 l2 : List Token) :
    runTokens st (l1 ++ l2) = runTokens (runTokens st l1) l2 := by
  simp [runTokens]

theorem stepCapture_text (st : PState) (oe : OpenElem) (rest : List OpenElem)
    (s : String) :
    stepCapture st oe rest (.text s) =
      { st with stack :=
          { oe with
            buffer := oe.buffer ++ s.data,
            hasBuf := true } :: rest } := by
  rw [stepCapture]

theorem stepCapture_close_plain (st : PState) (oe : OpenElem) (rest : List OpenElem)
    (hd0 : oe.depth = 0) (hraw : oe.rawCapture = false) :
    stepCapture st oe rest (.tagClose oe.tag) =
      attachNode { st with stack := rest } (finalizeElem oe) := by
  rw [stepCapture, if_pos rfl, if_pos hd0, if_neg (by simp [hraw])]

mutual

theorem runTokens_node (n : Node) (st : PState)
    (hh : st.inHead = false)
    (hcap : topNotCapturing st.stack = true)
    (hacc : topAccepts st.stack n.type = true)
    (hn : schemaDefaultNode n = true) :
    runTokens st (nodeTokens n) = attachNode st (eraseIds n) := by
  match n with
  | .mk i t p children (some str) =>
    obtain ⟨ha, hv, hc, hch⟩ := schemaDefault_parts hn
    simp only [Node.type_mk] at hacc
    have hText : hasTextContent t = true :=
      defaultContent_hasText t (by rw [← hc]; rfl)
    have hchn : children = [] := by
      have h2 := hasText_noChildren t hText
      rw [if_neg (by simp [h2])] at hch
      exact hch
    have hstr : textOK str = true := by
      have h2 := defaultContent_textOK t
      rw [← hc] at h2
      simpa [Option.all] using h2
    have hne : str.data.isEmpty = false := by
      simp only [textOK, Bool.and_eq_true, Bool.not_eq_true'] at hstr
      exact hstr.1
    subst hchn
    rw [nodeTokens]
    simp only [hne, Bool.false_eq_true, if_false]
    rw [runTokens_cons, step_notCapturing st _ hh hcap,
      stepMain_open_known st t _ hacc, hText, runTokens_cons, runTokens_cons,
      runTokens_nil]
    simp only [step, stepBody, stepCapture, hh, Bool.false_eq_true, if_false,
      if_true, eq_self_iff_true, finalizeElem, attachNode, eraseIds, eraseIdsList,
      List.nil_append, stringMk_data, mergeDefaults_nonDefault t p ha]
  | .mk i t p children none =>
    obtain ⟨ha, hv, hc, hch⟩ := schemaDefault_parts hn
    simp only [Node.type_mk] at hacc
    rw [nodeTokens]
    match hemp : children.isEmpty with
    | true =>
      have hchn : children = [] := List.isEmpty_iff.mp hemp
      subst hchn
      simp only [if_true]
      rw [runTokens_cons, runTokens_nil, step_notCapturing st _ hh hcap,
        stepMain_selfClose_known st t _ hacc, mergeDefaults_nonDefault t p ha,
        eraseIds, eraseIdsList]
    | false =>
      simp only [Bool.false_eq_true, if_false]
      have hacc2 : acceptsChildren t = true := by
        by_contra hn2
        rw [if_neg hn2] at hch
        rw [hch] at hemp
        simp at hemp
      rw [if_pos hacc2] at hch
      have hText : hasTextContent t = false := acceptsChildren_noText t hacc2
      have hmem := schemaDefaultChildren_mem hch
      rw [runTokens_cons, step_notCapturing st _ hh hcap,
        stepMain_open_known st t _ hacc, hText, runTokens_append]
      rw [runTokens_nodes children
        ({ st with stack :=
          (⟨t, tagName t, mergeDefaults t (nonDefaultProps t p), [], [], false,
            false, false, 0⟩ : OpenElem) :: st.stack }) hh (by rfl)
        (fun n2 hn2 => (hmem n2 hn2).1)
        (fun n2 hn2 => (hmem n2 hn2).2)]
      rw [show ({ st with stack :=
          (⟨t, tagName t, mergeDefaults t (nonDefaultProps t p), [], [], false,
            false, false, 0⟩ : OpenElem) :: st.stack }) =
        PState.mk ((⟨t, tagName t, mergeDefaults t (nonDefaultProps t p), [], [],
          false, false, false, 0⟩ : OpenElem) :: st.stack) st.roots st.inHead
          st.headDepth st.head from rfl]
      rw [attachList_cons_stack, runTokens_cons, runTokens_nil]
      simp only [step, stepBody, stepMain, closeStack, popThrough, hh,
        Bool.false_eq_true, if_false, if_true, eq_self_iff_true, List.any_cons,
        beq_self_eq_true, Bool.true_or, finalizeElem, attachNode, eraseIds,
        List.nil_append, mergeDefaults_nonDefault t p ha]

theorem runTokens_nodes (ns : List Node) (st : PState)
    (hh : st.inHead = false)
    (hcap : topNotCapturing st.stack = true)
    (hacc : ∀ n ∈ ns, topAccepts st.stack n.type = true)
    (hn : ∀ n ∈ ns, schemaDefaultNode n = true) :
    runTokens st (nodesTokens ns) = attachList st (eraseIdsList ns) := by
  match ns with
  | [] => rfl
  | n :: ns =>
    rw [nodesTokens, runTokens_append,
      runTokens_node n st hh hcap (hacc n (by simp)) (hn n (by simp))]
    rw [runTokens_nodes ns (attachNode st (eraseIds n))
      (by rw [attachNode_inHead]; exact hh)
      (by rw [attachNode_notCapturing]; exact hcap)
      (fun n2 hn2 => by rw [attachNode_topAccepts]; exact hacc n2 (by simp [hn2]))
      (fun n2 hn2 => hn n2 (by simp [hn2]))]
    rw [eraseIdsList]
    rfl

end

/-! ## The head block leaves the tree state untouched -/

def allSelfClose : List Token → Bool
  | [] => true
  | .tagSelfClose _ _ :: ts => allSelfClose ts
  | _ => false

theorem allSelfClose_map_fonts (l : List (String × String)) :
    allSelfClose (l.map (fun f =>
      Token.tagSelfClose "mj-font" [("name", f.1), ("href", f.2)])) = true := by
  induction l with
  | nil => rfl
  | cons f l ih => simpa [allSelfClose] using ih

theorem allSelfClose_map_attrTags (l : List (String × List (String × String))) :
    allSelfClose (l.map (fun ta => Token.tagSelfClose ta.1 ta.2)) = true := by
  induction l with
  | nil => rfl
  | cons f l ih => simpa [allSelfClose] using ih

theorem stepHead_selfClose_mk (stk : List OpenElem) (roots : List Node) (hd0 : Nat)
    (ha0 : HeadAcc) (nm : String) (attrs : List (String × String)) :
    ∃ ha2, step (PState.mk stk roots true hd0 ha0) (.tagSelfClose nm attrs) =
      PState.mk stk roots true hd0 ha2 := by
  rw [step, if_pos rfl, stepHead]
  by_cases h1 : nm = "mj-font"
  · rw [if_pos h1]
    exact ⟨_, rfl⟩
  · rw [if_neg h1]
    by_cases h2 : nm = "mj-breakpoint"
    · rw [if_pos h2]
      exact ⟨_, rfl⟩
    · rw [if_neg h2]
      by_cases h3 : (PState.mk stk roots true hd0 ha0).head.inAttributes = true
      · rw [if_pos h3]
        exact ⟨_, rfl⟩
      · rw [if_neg h3]
        exact ⟨ha0, rfl⟩

theorem runTokens_selfCloses (ts : List Token) (stk : List OpenElem)
    (roots : List Node) (hd0 : Nat) (ha0 : HeadAcc) (hts : allSelfClose ts = true) :
    ∃ ha2, runTokens (PState.mk stk roots true hd0 ha0) ts =
      PState.mk stk roots true hd0 ha2 := by
  match ts with
  | [] => exact ⟨ha0, rfl⟩
  | .tagSelfClose nm attrs :: ts2 =>
    rw [allSelfClose] at hts
    obtain ⟨ha1, h1⟩ := stepHead_selfClose_mk stk roots hd0 ha0 nm attrs
    rw [runTokens_cons, h1]
    exact runTokens_selfCloses ts2 stk roots hd0 ha1 hts
  | .tagOpen nm attrs :: ts2 => exact absurd hts (by simp [allSelfClose])
  | .tagClose nm :: ts2 => exact absurd hts (by simp [allSelfClose])
  | .text s2 :: ts2 => exact absurd hts (by simp [allSelfClose])

theorem stepMain_open_mjhead (st : PState) (attrs : List (String × String)) :
    stepMain st (.tagOpen "mj-head" attrs) =
      { st with inHead := true, headDepth := 0 } := by
  rw [stepMain, if_pos rfl]

theorem stepHead_open_attrs_mk (stk : List OpenElem) (roots : List Node) (hd0 : Nat)
    (ha0 : HeadAcc) :
    step (PState.mk stk roots true hd0 ha0) (.tagOpen "mj-attributes" []) =
      PState.mk stk roots true (hd0 + 1) { ha0 with inAttributes := true } := by
  rw [step, if_pos rfl, stepHead, if_pos rfl]

theorem stepHead_close_attrs_mk (stk : List OpenElem) (roots : List Node) (d : Nat)
    (ha0 : HeadAcc) :
    step (PState.mk stk roots true (d + 1) ha0) (.tagClose "mj-attributes") =
      PState.mk stk roots true d { ha0 with inAttributes := false } := by
  rw [step, if_pos rfl, stepHead, if_neg (by simp), if_pos rfl]
  rfl

theorem runTokens_attrsBlock (l : List (String × List (String × String)))
    (stk : List OpenElem) (roots : List Node) (ha0 : HeadAcc) :
    ∃ ha2, runTokens (PState.mk stk roots true 0 ha0)
      (Token.tagOpen "mj-attributes" [] ::
        (l.map (fun ta => Token.tagSelfClose ta.1 ta.2) ++
          [Token.tagClose "mj-attributes"])) =
      PState.mk stk roots true 0 ha2 := by
  rw [runTokens_cons, stepHead_open_attrs_mk, runTokens_append]
  obtain ⟨ha3, h3⟩ := runTokens_selfCloses
    (l.map (fun ta => Token.tagSelfClose ta.1 ta.2)) stk roots (0 + 1)
    { ha0 with inAttributes := true } (allSelfClose_map_attrTags l)
  rw [h3, runTokens_cons, runTokens_nil, stepHead_close_attrs_mk]
  exact ⟨_, rfl⟩

theorem stepHead_close_exit_mk (stk : List OpenElem) (roots : List Node)
    (ha0 : HeadAcc) :
    step (PState.mk stk roots true 0 ha0) (.tagClose "mj-head") =
      PState.mk stk roots false 0 ha0 := by
  rw [step, if_pos rfl, stepHead, if_pos rfl, if_pos rfl]

/-- Consuming the serialized head block from outside the head leaves the
stack and the completed roots untouched (only the head data changes). -/
theorem runTokens_headTokens (H : HeadSettings) (st : PState)
    (hh : st.inHead = false) (hcap : topNotCapturing st.stack = true) :
    ∃ ha2, runTokens st (headTokens H) = PState.mk st.stack st.roots false 0 ha2 := by
  rw [headTokens, runTokens_cons, step_notCapturing st _ hh hcap,
    stepMain_open_mjhead]
  rw [show ({ st with inHead := true, headDepth := 0 }) =
    PState.mk st.stack st.roots true 0 st.head from rfl]
  rw [runTokens_append]
  obtain ⟨ha1, h1⟩ := runTokens_selfCloses
    (H.fonts.map (fun f => Token.tagSelfClose "mj-font" [("name", f.1), ("href", f.2)]))
    st.stack st.roots 0 st.head (allSelfClose_map_fonts H.fonts)
  rw [h1, runTokens_append]
  have hbk : allSelfClose (match H.breakpoint with
      | some w => [Token.tagSelfClose "mj-breakpoint" [("width", w)]]
      | none => []) = true := by
    cases H.breakpoint <;> simp [allSelfClose]
  obtain ⟨ha2x, h2⟩ := runTokens_selfCloses _ st.stack st.roots 0 ha1 hbk
  rw [h2, runTokens_append]
  by_cases hab : H.attributesByTag.isEmpty = true
  · rw [if_pos hab, runTokens_nil, runTokens_cons, runTokens_nil,
      stepHead_close_exit_mk]
    exact ⟨ha2x, rfl⟩
  · rw [if_neg hab]
    obtain ⟨ha3, h3⟩ := runTokens_attrsBlock H.attributesByTag st.stack st.roots ha2x
    rw [h3, runTokens_cons, runTokens_nil, stepHead_close_exit_mk]
    exact ⟨_, rfl⟩

/-! ## C1: generate/parse round trip -/

/-- Well-formed head settings: every rendered attribute value is quote-free
and every attributes-by-tag entry names a real tag with well-formed
attributes, so the serialized head block survives lexing. -/
def headOK (H : HeadSettings) : Bool :=
  H.fonts.all (fun f => attrValOK f.1 && attrValOK f.2) &&
  H.breakpoint.all attrValOK &&
  H.attributesByTag.all (fun ta => nameOK ta.1 && attrsOK ta.2)

theorem tokensOK_of_noText (ts : List Token) (h1 : ts.all tokenOK = true)
    (h2 : ts.all (fun t => !isTextTok t) = true) : tokensOK ts = true := by
  match ts with
  | [] => rfl
  | [t] =>
    rw [tokensOK]
    simpa using h1
  | t :: t2 :: rest =>
    rw [List.all_cons, Bool.and_eq_true] at h1 h2
    have hft : isTextTok t = false := by simpa using h2.1
    rw [tokensOK]
    simp [h1.1, hft, tokensOK_of_noText (t2 :: rest) h1.2 h2.2]

theorem headTokens_noText (H : HeadSettings) :
    (headTokens H).all (fun t => !isTextTok t) = true := by
  rw [headTokens]
  simp only [List.all_cons, List.all_append, List.all_nil, Bool.and_eq_true,
    Bool.and_true]
  refine ⟨by decide, ?_, ?_, ?_, by decide⟩
  · rw [List.all_eq_true]
    intro t ht
    rw [List.mem_map] at ht
    obtain ⟨f, _, rfl⟩ := ht
    rfl
  · cases H.breakpoint <;> rfl
  · by_cases he : H.attributesByTag.isEmpty = true
    · rw [if_pos he]
      rfl
    · rw [if_neg he]
      simp only [List.all_cons, List.all_append, List.all_nil, Bool.and_eq_true,
        Bool.and_true]
      refine ⟨by decide, ?_, by decide⟩
      rw [List.all_eq_true]
      intro t ht
      rw [List.mem_map] at ht
      obtain ⟨ta, _, rfl⟩ := ht
      rfl

theorem headTokens_allOK (H : HeadSettings) (hH : headOK H = true) :
    (headTokens H).all tokenOK = true := by
  rw [headOK] at hH
  simp only [Bool.and_eq_true] at hH
  obtain ⟨⟨hf, hb⟩, hat⟩ := hH
  rw [headTokens]
  simp only [List.all_cons, List.all_append, List.all_nil, Bool.and_eq_true,
    Bool.and_true]
  refine ⟨by decide, ?_, ?_, ?_, by decide⟩
  · rw [List.all_eq_true]
    intro t ht
    rw [List.mem_map] at ht
    obtain ⟨f, hfm, rfl⟩ := ht
    have h2 := List.all_eq_true.mp hf f hfm
    simp only [Bool.and_eq_true] at h2
    simp only [tokenOK, attrsOK, List.all_cons, List.all_nil, Bool.and_true]
    rw [h2.1, h2.2]
    decide
  · match hbo : H.breakpoint with
    | none => decide
    | some w =>
      rw [hbo] at hb
      simp only [Option.all] at hb
      simp only [List.all_cons, List.all_nil, Bool.and_true, tokenOK, attrsOK]
      rw [hb]
      decide
  · by_cases he : H.attributesByTag.isEmpty = true
    · rw [if_pos he]
      rfl
    · rw [if_neg he]
      simp only [List.all_cons, List.all_append, List.all_nil, Bool.and_eq_true,
        Bool.and_true]
      refine ⟨by decide, ?_, by decide⟩
      rw [List.all_eq_true]
      intro t ht
      rw [List.mem_map] at ht
      obtain ⟨ta, htm, rfl⟩ := ht
      have h2 := List.all_eq_true.mp hat ta htm
      simp only [Bool.and_eq_true] at h2
      simp [tokenOK, h2.1, h2.2]

/-- The serialized document token stream is well formed. -/
theorem docTokens_ok (T : Node) (H : HeadSettings)
    (hch : ∀ n ∈ T.children, schemaDefaultNode n = true) (hH : headOK H = true) :
    tokensOK (docTokens T H) = true := by
  rw [docTokens]
  refine tokensOK_cons_of (by decide) ?_ rfl
  refine tokensOK_append
    (tokensOK_of_noText _ (headTokens_allOK H hH) (headTokens_noText H)) ?_ ?_
  · exact tokensOK_append (nodesTokens_ok T.children hch) (by decide) rfl
  · exact firstNotText_append (nodesTokens_first T.children) rfl

/-- `runTokens_headTokens` restated on an explicit machine state. -/
theorem runTokens_headTokens_mk (H : HeadSettings) (stk : List OpenElem)
    (roots : List Node) (hd0 : Nat) (ha0 : HeadAcc)
    (hcap : topNotCapturing stk = true) :
    ∃ ha2, runTokens (PState.mk stk roots false hd0 ha0) (headTokens H) =
      PState.mk stk roots false 0 ha2 := by
  obtain ⟨ha2, h⟩ :=
    runTokens_headTokens H (PState.mk stk roots false hd0 ha0) rfl hcap
  exact ⟨ha2, by rw [h]⟩

/-- C1: for every tree `T` built only from schema-default constructions
(rooted at the document envelope) and every well-formed head settings `H`,
`parseMjmlToNode (generateMjml T H)` succeeds and returns a tree
structurally equal to `T` modulo node identifiers — types, attribute
values, child order and content match exactly; attributes omitted by the
serializer because they equal the schema default are reconstructed to the
same value by the parser's defaulting. -/
theorem claim1_generate_parse_roundtrip (T : Node) (H : HeadSettings) (k : Nat)
    (htype : T.type = .mjml) (hT : schemaDefaultNode T = true)
    (hH : headOK H = true) :
    ∃ R kf, parseMjmlToNode (generateMjml T H) k = .ok (some R, kf) ∧
      eraseIds R = eraseIds T := by
  match T with
  | .mk i t p children c =>
    rw [show Node.type (.mk i t p children c) = t from rfl] at htype
    subst htype
    obtain ⟨ha, hv, hc, hch⟩ := schemaDefault_parts hT
    have hp : p = [] := keysAligned_nil ha
    have hcn : c = none := hc
    subst hp
    subst hcn
    rw [if_pos (by decide : acceptsChildren MJType.mjml = true)] at hch
    have hmem := schemaDefaultChildren_mem hch
    have hdoc : tokensOK (docTokens (Node.mk i MJType.mjml [] children none) H)
        = true :=
      docTokens_ok _ H (fun n hn => (hmem n hn).2) hH
    obtain ⟨ha2, hrun⟩ : ∃ ha2,
        runTokens initPState (docTokens (Node.mk i MJType.mjml [] children none) H) =
          PState.mk [] [Node.mk 0 MJType.mjml [] (eraseIdsList children) none]
            false 0 ha2 := by
      rw [docTokens, runTokens_cons]
      rw [show step initPState (Token.tagOpen "mjml" []) =
        PState.mk [⟨MJType.mjml, "mjml", [], [], [], false, false, false, 0⟩] []
          false 0 ⟨[], none, [], false⟩ from rfl]
      rw [runTokens_append]
      obtain ⟨hax, h1⟩ := runTokens_headTokens_mk H
        [⟨MJType.mjml, "mjml", [], [], [], false, false, false, 0⟩] [] 0
        ⟨[], none, [], false⟩ rfl
      rw [h1, runTokens_append]
      rw [show nodesTokens (Node.mk i MJType.mjml [] children none).children =
        nodesTokens children from rfl]
      rw [runTokens_nodes children
        (PState.mk [⟨MJType.mjml, "mjml", [], [], [], false, false, false, 0⟩] []
          false 0 hax) rfl rfl
        (fun n hn => (hmem n hn).1) (fun n hn => (hmem n hn).2)]
      rw [attachList_cons_stack, runTokens_cons, runTokens_nil]
      refine ⟨hax, ?_⟩
      change closeStack (PState.mk
        [⟨MJType.mjml, "mjml", [], [] ++ eraseIdsList children, [], false, false,
          false, 0⟩] [] false 0 hax) "mjml" =
        PState.mk [] [Node.mk 0 MJType.mjml [] (eraseIdsList children) none]
          false 0 hax
      rw [closeStack_top_match _
        ⟨MJType.mjml, "mjml", [], [] ++ eraseIdsList children, [], false, false,
          false, 0⟩ [] "mjml" rfl rfl]
      rfl
    have hfin : finishStack
        (PState.mk [] [Node.mk 0 MJType.mjml [] (eraseIdsList children) none]
          false 0 ha2) =
        PState.mk [] [Node.mk 0 MJType.mjml [] (eraseIdsList children) none]
          false 0 ha2 := by
      rw [finishStack]
    have hlex : lexMain (generateMjml (Node.mk i MJType.mjml [] children none) H).data =
        .ok (docTokens (Node.mk i MJType.mjml [] children none) H) :=
      lexMain_renderTokens _ hdoc
    refine ⟨(cloneDocumentWithNewIds
        (Node.mk 0 MJType.mjml [] (eraseIdsList children) none) k).1,
      (cloneDocumentWithNewIds
        (Node.mk 0 MJType.mjml [] (eraseIdsList children) none) k).2, ?_, ?_⟩
    · rw [parseMjmlToNode, parseShape, hlex]
      simp only [Except.map]
      rw [hrun, hfin]
      rfl
    · rw [cloneNode_erase]
      simp only [eraseIds]
      rw [eraseIdsList_idem]

theorem claim1_generate_parse_roundtrip_witness :
    (Node.mk 1 MJType.mjml [] [Node.mk 2 MJType.mjBody [] [] none] none).type
        = MJType.mjml ∧
    schemaDefaultNode
      (Node.mk 1 MJType.mjml [] [Node.mk 2 MJType.mjBody [] [] none] none)
        = true ∧
    headOK ⟨[("Inter", "https://example.com/inter")], some "480px",
      [("mj-text", [("color", "#112233")])]⟩ = true ∧
    ∃ R kf, parseMjmlToNode
        (generateMjml
          (Node.mk 1 MJType.mjml [] [Node.mk 2 MJType.mjBody [] [] none] none)
          ⟨[("Inter", "https://example.com/inter")], some "480px",
            [("mj-text", [("color", "#112233")])]⟩) 0 = .ok (some R, kf) ∧
      eraseIds R = eraseIds
        (Node.mk 1 MJType.mjml [] [Node.mk 2 MJType.mjBody [] [] none] none) :=
  ⟨rfl, by decide, by decide,
    claim1_generate_parse_roundtrip
      (Node.mk 1 MJType.mjml [] [Node.mk 2 MJType.mjBody [] [] none] none)
      ⟨[("Inter", "https://example.com/inter")], some "480px",
        [("mj-text", [("color", "#112233")])]⟩ 0 rfl (by decide) (by decide)⟩

/-! ## Concrete parses used by witnesses -/

theorem parse_unterminated :
    parseMjmlToNode "<a b=\"" 0 = .error "Unterminated quoted attribute value" := by
  rw [parseMjmlToNode, parseShape]
  rw [show lexMain "<a b=\"".data = .error "Unterminated quoted attribute value" from by
    simp [lexMain, lexLt, lexOpenName, lexAttrList, lexAttrName, lexAttrEq,
      lexAttrValue, isNameChar, isQuoteChar]]
  rfl

theorem parse_mjml_selfclose0 : parseMjmlToNode "<mjml/>" 0 =
    .ok (some (Node.mk 0 MJType.mjml [] [] none), 1) := by
  have hlex : lexMain "<mjml/>".data = .ok [Token.tagSelfClose "mjml" []] := by
    simp [lexMain, lexLt, lexOpenName, lexAfterSlash, isNameChar, Except.map]
  rw [parseMjmlToNode, parseShape, hlex]
  simp only [Except.map]
  rw [show runTokens initPState [Token.tagSelfClose "mjml" []] =
    PState.mk [] [Node.mk 0 MJType.mjml [] [] none] false 0 ⟨[], none, [], false⟩
      from rfl]
  rw [finishStack]
  rfl

theorem parse_mjml_selfclose1 : parseMjmlToNode "<mjml/>" 1 =
    .ok (some (Node.mk 1 MJType.mjml [] [] none), 2) := by
  have hlex : lexMain "<mjml/>".data = .ok [Token.tagSelfClose "mjml" []] := by
    simp [lexMain, lexLt, lexOpenName, lexAfterSlash, isNameChar, Except.map]
  rw [parseMjmlToNode, parseShape, hlex]
  simp only [Except.map]
  rw [show runTokens initPState [Token.tagSelfClose "mjml" []] =
    PState.mk [] [Node.mk 0 MJType.mjml [] [] none] false 0 ⟨[], none, [], false⟩
      from rfl]
  rw [finishStack]
  rfl

/-! ## C3: editor sync on parse failure and success -/

/-- Editor code-view state touched by the sync paths: the synced document,
the divergent hand-edited code, and the displayed error message. -/
structure EditorSyncState where
  document : Node
  editedCode : Option String
  error : Option String

/-- The body of the debounced auto-sync effect (`CodeEditor`): parse the
edited code; a thrown parse error only records its message; a null tree
changes nothing; a tree is passed to `setDocument` and the error is
cleared (the edited code is kept so the dirty indicator stays). -/
def autoSyncEffect (code : String) (k : Nat) (st : EditorSyncState) :
    EditorSyncState × Nat :=
  match parseMjmlToNode code k with
  | .error e => ({ st with error := some e }, k)
  | .ok (none, k2) => (st, k2)
  | .ok (some node, k2) => ({ st with document := node, error := none }, k2)

/-- `handleSync`: parse the edited code; a tree is passed to
`setDocument` and both the edited code and the error are cleared; a null
tree sets a fixed message; a thrown parse error records its message. -/
def handleSync (code : String) (k : Nat) (st : EditorSyncState) :
    EditorSyncState × Nat :=
  match parseMjmlToNode code k with
  | .error e => ({ st with error := some e }, k)
  | .ok (none, k2) =>
      ({ st with error := some "Failed to parse MJML. Please check the syntax." }, k2)
  | .ok (some node, k2) =>
      ({ st with document := node, editedCode := none, error := none }, k2)

/-- C3: when `parseMjmlToNode` signals a parse error, both sync paths
(the debounced auto-sync effect and `handleSync`) leave the document
unchanged and record the thrown message for display; when parsing
succeeds with a non-null tree, the document is set to that tree, and
`handleSync` additionally clears the edited-code and error state. -/
theorem claim3_sync_error_preserves_document (code : String) (k : Nat)
    (st : EditorSyncState) :
    (∀ e, parseMjmlToNode code k = .error e →
      (autoSyncEffect code k st).1.document = st.document ∧
      (autoSyncEffect code k st).1.error = some e ∧
      (handleSync code k st).1.document = st.document ∧
      (handleSync code k st).1.error = some e) ∧
    (∀ node k2, parseMjmlToNode code k = .ok (some node, k2) →
      (autoSyncEffect code k st).1.document = node ∧
      (handleSync code k st).1.document = node ∧
      (handleSync code k st).1.editedCode = none ∧
      (handleSync code k st).1.error = none) := by
  constructor
  · intro e he
    rw [autoSyncEffect, handleSync, he]
    exact ⟨rfl, rfl, rfl, rfl⟩
  · intro node k2 h
    rw [autoSyncEffect, handleSync, h]
    exact ⟨rfl, rfl, rfl, rfl⟩

theorem claim3_sync_error_preserves_document_witness :
    ((autoSyncEffect "<a b=\"" 0
        ⟨Node.mk 7 MJType.mjText [] [] (some "t"), some "<a b=\"", none⟩).1.document
      = Node.mk 7 MJType.mjText [] [] (some "t") ∧
     (handleSync "<a b=\"" 0
        ⟨Node.mk 7 MJType.mjText [] [] (some "t"), some "<a b=\"", none⟩).1.error
      = some "Unterminated quoted attribute value") ∧
    ((autoSyncEffect "<mjml/>" 0
        ⟨Node.mk 7 MJType.mjText [] [] (some "t"), some "<mjml/>", none⟩).1.document
      = Node.mk 0 MJType.mjml [] [] none ∧
     (handleSync "<mjml/>" 0
        ⟨Node.mk 7 MJType.mjText [] [] (some "t"), some "<mjml/>", none⟩).1.editedCode
      = none) :=
  ⟨⟨((claim3_sync_error_preserves_document "<a b=\"" 0
        ⟨Node.mk 7 MJType.mjText [] [] (some "t"), some "<a b=\"", none⟩).1
      "Unterminated quoted attribute value" parse_unterminated).1,
    ((claim3_sync_error_preserves_document "<a b=\"" 0
        ⟨Node.mk 7 MJType.mjText [] [] (some "t"), some "<a b=\"", none⟩).1
      "Unterminated quoted attribute value" parse_unterminated).2.2.2⟩,
   ⟨((claim3_sync_error_preserves_document "<mjml/>" 0
        ⟨Node.mk 7 MJType.mjText [] [] (some "t"), some "<mjml/>", none⟩).2
      (Node.mk 0 MJType.mjml [] [] none) 1 parse_mjml_selfclose0).1,
    ((claim3_sync_error_preserves_document "<mjml/>" 0
        ⟨Node.mk 7 MJType.mjText [] [] (some "t"), some "<mjml/>", none⟩).2
      (Node.mk 0 MJType.mjml [] [] none) 1 parse_mjml_selfclose0).2.2.1⟩⟩

/-! ## C7: same markup parsed twice -/

/-- C7: parsing the same markup twice, with the id generator threaded
from the first run into the second, yields trees that are structurally
equal (same types, attribute values, child order, content) but
identity-distinct: each tree's id set is duplicate-free, the two sets
are disjoint, and every id comes from the threaded generator's fresh
range, never from the node's content. -/
theorem claim7_parse_twice_identity_distinct (s : String) (k1 k2 k3 : Nat)
    (R1 R2 : Node)
    (h1 : parseMjmlToNode s k1 = .ok (some R1, k2))
    (h2 : parseMjmlToNode s k2 = .ok (some R2, k3)) :
    eraseIds R1 = eraseIds R2 ∧
    (nodeIds R1).Nodup ∧ (nodeIds R2).Nodup ∧
    List.Disjoint (nodeIds R1) (nodeIds R2) ∧
    (∀ i ∈ nodeIds R1, k1 ≤ i ∧ i < k2) ∧
    (∀ i ∈ nodeIds R2, k2 ≤ i ∧ i < k3) := by
  match hps : parseShape s with
  | .error e =>
    rw [parseMjmlToNode, hps] at h1
    simp [Except.map] at h1
  | .ok none =>
    rw [parseMjmlToNode, hps] at h1
    simp [Except.map] at h1
  | .ok (some sh) =>
    rw [parseMjmlToNode, hps] at h1 h2
    simp only [Except.map, Except.ok.injEq, Prod.mk.injEq, Option.some.injEq] at h1 h2
    obtain ⟨hR1, hk2⟩ := h1
    obtain ⟨hR2, hk3⟩ := h2
    subst hR1
    subst hk2
    subst hR2
    subst hk3
    refine ⟨?_, ?_, ?_, ?_, ?_, ?_⟩
    · rw [cloneNode_erase, cloneNode_erase]
    · rw [cloneNode_ids]
      exact List.nodup_range' _ _
    · rw [cloneNode_ids]
      exact List.nodup_range' _ _
    · intro i hi hi'
      have ha := mem_cloneNode_ids hi
      have hb := mem_cloneNode_ids hi'
      rw [cloneNode_counter] at hb
      omega
    · intro i hi
      have ha := mem_cloneNode_ids hi
      rw [cloneNode_counter]
      omega
    · intro i hi
      have ha := mem_cloneNode_ids hi
      rw [cloneNode_counter] at ha
      rw [cloneNode_counter, cloneNode_counter]
      omega

theorem claim7_parse_twice_identity_distinct_witness :
    parseMjmlToNode "<mjml/>" 0 = .ok (some (Node.mk 0 MJType.mjml [] [] none), 1) ∧
    parseMjmlToNode "<mjml/>" 1 = .ok (some (Node.mk 1 MJType.mjml [] [] none), 2) ∧
    (eraseIds (Node.mk 0 MJType.mjml [] [] none) =
        eraseIds (Node.mk 1 MJType.mjml [] [] none) ∧
      (nodeIds (Node.mk 0 MJType.mjml [] [] none)).Nodup ∧
      (nodeIds (Node.mk 1 MJType.mjml [] [] none)).Nodup ∧
      List.Disjoint (nodeIds (Node.mk 0 MJType.mjml [] [] none))
        (nodeIds (Node.mk 1 MJType.mjml [] [] none)) ∧
      (∀ i ∈ nodeIds (Node.mk 0 MJType.mjml [] [] none), 0 ≤ i ∧ i < 1) ∧
      (∀ i ∈ nodeIds (Node.mk 1 MJType.mjml [] [] none), 1 ≤ i ∧ i < 2)) :=
  ⟨parse_mjml_selfclose0, parse_mjml_selfclose1,
    claim7_parse_twice_identity_distinct "<mjml/>" 0 1 2 _ _
      parse_mjml_selfclose0 parse_mjml_selfclose1⟩

/-! ## C8: the auto-sync debounce -/

/-- The auto-sync effect of `CodeEditor` as a timer process: each edit
(cleanup of the previous effect run) cancels the pending timer and
schedules a parse of the new code 500 ms later; a pending timer fires
only if it comes due before the next edit (or before the end of
observation).  The result lists the parse invocations as
(fire time, parsed code). -/
def debounceRun : Option (Nat × String) → List (Nat × String) → Nat →
    List (Nat × String)
  | pending, [], tEnd =>
      match pending with
      | some (tf, c) => if tf ≤ tEnd then [(tf, c)] else []
      | none => []
  | pending, (t, c) :: rest, tEnd =>
      match pending with
      | some (tf, cp) =>
          if tf ≤ t then (tf, cp) :: debounceRun (some (t + 500, c)) rest tEnd
          else debounceRun (some (t + 500, c)) rest tEnd
      | none => debounceRun (some (t + 500, c)) rest tEnd

/-- The pauses in typing: edits followed by at least the debounce window
(500 ms) of silence before the next edit (or the end of observation). -/
def pauseEdits : List (Nat × String) → Nat → List (Nat × String)
  | [], _ => []
  | [(t, c)], tEnd => if t + 500 ≤ tEnd then [(t, c)] else []
  | (t, c) :: (t2, c2) :: rest, tEnd =>
      if t + 500 ≤ t2 then (t, c) :: pauseEdits ((t2, c2) :: rest) tEnd
      else pauseEdits ((t2, c2) :: rest) tEnd

theorem debounceRun_pending (t : Nat) (c : String) (rest : List (Nat × String))
    (tEnd : Nat) :
    debounceRun (some (t + 500, c)) rest tEnd =
      (pauseEdits ((t, c) :: rest) tEnd).map (fun e => (e.1 + 500, e.2)) := by
  match rest with
  | [] =>
    rw [debounceRun, pauseEdits]
    by_cases h : t + 500 ≤ tEnd
    · rw [if_pos h, if_pos h]
      rfl
    · rw [if_neg h, if_neg h]
      rfl
  | (t2, c2) :: rest2 =>
    rw [debounceRun, pauseEdits]
    by_cases h : t + 500 ≤ t2
    · rw [if_pos h, if_pos h, debounceRun_pending t2 c2 rest2 tEnd]
      rfl
    · rw [if_neg h, if_neg h, debounceRun_pending t2 c2 rest2 tEnd]

theorem pauseEdits_length (edits : List (Nat × String)) (tEnd : Nat) :
    (pauseEdits edits tEnd).length ≤ edits.length := by
  match edits with
  | [] => exact Nat.le_refl 0
  | [(t, c)] =>
    rw [pauseEdits]
    by_cases h : t + 500 ≤ tEnd
    · rw [if_pos h]
    · rw [if_neg h]
      exact Nat.zero_le 1
  | (t, c) :: (t2, c2) :: rest =>
    rw [pauseEdits]
    have ih := pauseEdits_length ((t2, c2) :: rest) tEnd
    by_cases h : t + 500 ≤ t2
    · rw [if_pos h]
      simpa using ih
    · rw [if_neg h]
      exact Nat.le_trans ih (by simp)

/-- C8: the debounced auto-sync invokes the parser exactly once per pause
in typing — the invocations are precisely the edits followed by at least
the 500 ms window of silence, each parse firing 500 ms after its edit —
so every edit arriving within the window cancels the pending parse and
the parser is never invoked once per keystroke (never more often than
once per edit, and strictly less whenever consecutive edits fall within
the window). -/
theorem claim8_debounce_once_per_pause (edits : List (Nat × String)) (tEnd : Nat) :
    debounceRun none edits tEnd =
      (pauseEdits edits tEnd).map (fun e => (e.1 + 500, e.2)) ∧
    (debounceRun none edits tEnd).length ≤ edits.length := by
  have hmain : debounceRun none edits tEnd =
      (pauseEdits edits tEnd).map (fun e => (e.1 + 500, e.2)) := by
    match edits with
    | [] => rfl
    | (t, c) :: rest =>
      rw [debounceRun]
      exact debounceRun_pending t c rest tEnd
  refine ⟨hmain, ?_⟩
  rw [hmain, List.length_map]
  exact pauseEdits_length edits tEnd

/-! ## C9: the locked-region overlap test -/

/-- A locked region in the code editor (Monaco 1-based coordinates). -/
structure LockedRegion where
  startLine : Nat
  endLine : Nat
  startColumn : Nat
  endColumn : Nat
deriving DecidableEq, Repr

/-- A Monaco edit range. -/
structure IRange where
  startLineNumber : Nat
  startColumn : Nat
  endLineNumber : Nat
  endColumn : Nat
deriving DecidableEq, Repr

/-- `isRangeInLockedRegion(range, lockedRegions)`: whether the edit range
overlaps any locked region (starts before the region ends and ends after
the region starts, with column comparison on the shared boundary line). -/
def isRangeInLockedRegion (range : IRange) (lockedRegions : List LockedRegion) :
    Bool :=
  lockedRegions.any (fun region =>
    (decide (range.startLineNumber < region.endLine) ||
      (decide (range.startLineNumber = region.endLine) &&
       decide (range.startColumn ≤ region.endColumn))) &&
    (decide (range.endLineNumber > region.startLine) ||
      (decide (range.endLineNumber = region.startLine) &&
       decide (range.endColumn ≥ region.startColumn))))

/-- C9: a well-formed edit range lying entirely inside some locked region
is reported as locked, and a range whose lines lie strictly before every
region's start line — or strictly after every region's end line — is not. -/
theorem claim9_range_overlap_bounds (range : IRange) (L : List LockedRegion)
    (hwf : range.startLineNumber < range.endLineNumber ∨
      (range.startLineNumber = range.endLineNumber ∧
       range.startColumn ≤ range.endColumn)) :
    (∀ region ∈ L,
      region.startLine ≤ range.startLineNumber →
      range.endLineNumber ≤ region.endLine →
      region.startColumn ≤ range.startColumn →
      range.endColumn ≤ region.endColumn →
      isRangeInLockedRegion range L = true) ∧
    ((∀ region ∈ L, range.endLineNumber < region.startLine) →
      isRangeInLockedRegion range L = false) ∧
    ((∀ region ∈ L, region.endLine < range.startLineNumber) →
      isRangeInLockedRegion range L = false) := by
  refine ⟨?_, ?_, ?_⟩
  · intro region hm h1 h2 h3 h4
    rw [isRangeInLockedRegion, List.any_eq_true]
    refine ⟨region, hm, ?_⟩
    simp only [Bool.and_eq_true, Bool.or_eq_true, decide_eq_true_eq]
    omega
  · intro hall
    rw [isRangeInLockedRegion, List.any_eq_false]
    intro region hm
    have h := hall region hm
    simp only [Bool.and_eq_true, Bool.or_eq_true, decide_eq_true_eq, not_and,
      not_or]
    omega
  · intro hall
    rw [isRangeInLockedRegion, List.any_eq_false]
    intro region hm
    have h := hall region hm
    simp only [Bool.and_eq_true, Bool.or_eq_true, decide_eq_true_eq, not_and,
      not_or]
    omega

theorem claim9_range_overlap_bounds_witness :
    isRangeInLockedRegion ⟨2, 2, 2, 5⟩ [⟨1, 3, 1, 10⟩] = true ∧
    isRangeInLockedRegion ⟨5, 1, 5, 2⟩ [⟨1, 3, 1, 10⟩] = false :=
  ⟨(claim9_range_overlap_bounds ⟨2, 2, 2, 5⟩ [⟨1, 3, 1, 10⟩]
      (by decide)).1 ⟨1, 3, 1, 10⟩ (by decide)
      (by decide) (by decide) (by decide) (by decide),
   (claim9_range_overlap_bounds ⟨5, 1, 5, 2⟩ [⟨1, 3, 1, 10⟩]
      (by decide)).2.2 (by decide)⟩

/-! ## C10: the email-sending POST route -/

/-- The `email` part of the request body; optional strings model fields
that may be absent, and JavaScript falsiness treats the empty string like
an absent field. -/
structure EmailContent where
  fromAddr : Option String
  toAddr : Option String
  subject : Option String
  html : Option String
  text : Option String

structure SmtpAuth where
  user : Option String
  pass : Option String

structure SmtpConfig where
  host : Option String
  port : Nat
  secure : Bool
  auth : Option SmtpAuth

/-- The request body of the email-sending POST route. -/
structure SendEmailRequest where
  mode : String
  resendApiKey : Option String
  smtp : Option SmtpConfig
  email : EmailContent

/-- JavaScript falsiness of an optional string field: absent or empty. -/
def falsy : Option String → Bool
  | none => true
  | some s => s.isEmpty

/-- What the handler does before/instead of any transport call: a 400
response with an error message, or a send attempt through one of the
three transports. -/
inductive HandlerOutcome where
  | badRequest (message : String)
  | resendAttempt (apiKey : String) (fromAddress : String)
  | etherealAttempt
  | smtpAttempt (host : String) (fromAddress : String)
deriving DecidableEq, Repr

def statusOf : HandlerOutcome → Nat
  | .badRequest _ => 400
  | _ => 200

/-- The control flow of `POST` up to the first transport call: validate
the email content, then dispatch on mode — `resend` requires an API key,
`test` goes to Ethereal, anything else is custom SMTP and requires host,
auth user/pass and a sender address. -/
def POST (body : SendEmailRequest) : HandlerOutcome :=
  if falsy body.email.toAddr || falsy body.email.subject || falsy body.email.html then
    .badRequest "Missing email content (to, subject, html)"
  else if body.mode = "resend" then
    if falsy body.resendApiKey then .badRequest "Missing Resend API Key"
    else .resendAttempt (body.resendApiKey.getD "")
      (if falsy body.email.fromAddr then "Mail Studio <onboarding@resend.dev>"
       else body.email.fromAddr.getD "")
  else if body.mode = "test" then .etherealAttempt
  else
    if falsy (body.smtp.bind SmtpConfig.host) ||
       falsy ((body.smtp.bind SmtpConfig.auth).bind SmtpAuth.user) ||
       falsy ((body.smtp.bind SmtpConfig.auth).bind SmtpAuth.pass) then
      .badRequest "Missing SMTP configuration"
    else if falsy body.email.fromAddr then
      .badRequest "Missing sender email address"
    else .smtpAttempt ((body.smtp.bind SmtpConfig.host).getD "")
      (body.email.fromAddr.getD "")

/-- C10: a request body lacking `email.to` (modelled as `toAddr`), `email.subject` or
`email.html` is answered with status 400 and the fixed error message,
without any send attempt; likewise a body with mode `"resend"` and no
`resendApiKey` gets a 400 response without a send attempt. -/
theorem claim10_post_missing_fields_rejected (body : SendEmailRequest) :
    ((falsy body.email.toAddr || falsy body.email.subject || falsy body.email.html)
        = true →
      POST body = .badRequest "Missing email content (to, subject, html)" ∧
      statusOf (POST body) = 400) ∧
    (body.mode = "resend" → falsy body.resendApiKey = true →
      ∃ msg, POST body = .badRequest msg ∧ statusOf (POST body) = 400) := by
  constructor
  · intro h
    rw [POST, if_pos h]
    exact ⟨rfl, rfl⟩
  · intro hm hk
    rw [POST]
    by_cases h : (falsy body.email.toAddr || falsy body.email.subject ||
        falsy body.email.html) = true
    · rw [if_pos h]
      exact ⟨"Missing email content (to, subject, html)", rfl, rfl⟩
    · rw [if_neg h, if_pos hm, if_pos hk]
      exact ⟨"Missing Resend API Key", rfl, rfl⟩

theorem claim10_post_missing_fields_rejected_witness :
    (POST ⟨"smtp", none, none, ⟨some "a@b.c", none, some "Hi", some "<p/>", none⟩⟩
      = .badRequest "Missing email content (to, subject, html)" ∧
     statusOf (POST ⟨"smtp", none, none,
        ⟨some "a@b.c", none, some "Hi", some "<p/>", none⟩⟩) = 400) ∧
    (∃ msg, POST ⟨"resend", none, none,
        ⟨none, some "x@y.z", some "Hi", some "<p/>", none⟩⟩ = .badRequest msg ∧
      statusOf (POST ⟨"resend", none, none,
        ⟨none, some "x@y.z", some "Hi", some "<p/>", none⟩⟩) = 400) :=
  ⟨(claim10_post_missing_fields_rejected
      ⟨"smtp", none, none, ⟨some "a@b.c", none, some "Hi", some "<p/>", none⟩⟩).1
      (by decide),
   (claim10_post_missing_fields_rejected
      ⟨"resend", none, none, ⟨none, some "x@y.z", some "Hi", some "<p/>", none⟩⟩).2
      rfl (by decide)⟩

/-! ## C5: the parser's containment invariant -/

mutual

/-- Every node below this one satisfies the containment rule against its
parent, or is a raw passthrough node. -/
def containOK : Node → Bool
  | .mk _ t _ children _ => childrenOK t children

/-- Each child of a node of type `t` is allowed in it (or raw) and is
recursively well contained. -/
def childrenOK (t : MJType) : List Node → Bool
  | [] => true
  | n :: ns =>
      (canContain t n.type || n.type == .mjRaw) && containOK n && childrenOK t ns

end

/-- Stack adjacency: each open element is allowed in (or raw under) the
element below it. -/
def stackAdjOK : List OpenElem → Bool
  | [] => true
  | [_] => true
  | oe :: oe2 :: rest =>
      (canContain oe2.otype oe.otype || oe.otype == .mjRaw) &&
        stackAdjOK (oe2 :: rest)

/-- Each open element's accumulated children are well contained in it. -/
def stackElemsOK (l : List OpenElem) : Bool :=
  l.all (fun oe => childrenOK oe.otype oe.children)

/-- Machine invariant: stack adjacency, well-contained open children and
well-contained completed roots. -/
def invOK (st : PState) : Bool :=
  stackAdjOK st.stack && stackElemsOK st.stack && st.roots.all containOK

theorem childrenOK_append (t : MJType) (xs : List Node) (c : Node)
    (h1 : childrenOK t xs = true)
    (h2 : (canContain t c.type || c.type == .mjRaw) = true)
    (h3 : containOK c = true) :
    childrenOK t (xs ++ [c]) = true := by
  induction xs with
  | nil => simp [childrenOK, h2, h3]
  | cons x xs ih =>
    rw [List.cons_append, childrenOK]
    rw [childrenOK] at h1
    simp only [Bool.and_eq_true] at h1 ⊢
    exact ⟨⟨h1.1.1, h1.1.2⟩, ih h1.2⟩

theorem containOK_finalize (oe : OpenElem)
    (h : childrenOK oe.otype oe.children = true) :
    containOK (finalizeElem oe) = true := by
  rw [finalizeElem]
  by_cases hr : oe.rawCapture = true
  · rw [if_pos hr]
    rfl
  · rw [if_neg hr, containOK]
    exact h

theorem finalize_type_raw_or (oe : OpenElem) :
    (finalizeElem oe).type = oe.otype ∨ (finalizeElem oe).type = .mjRaw := by
  rw [finalizeElem]
  by_cases hr : oe.rawCapture = true
  · rw [if_pos hr]
    right
    rfl
  · rw [if_neg hr]
    left
    rfl

theorem clone_type (n : Node) (k : Nat) :
    (cloneDocumentWithNewIds n k).1.type = n.type := by
  match n with
  | .mk i t p children c => rfl

theorem invOK_attach (stk : List OpenElem) (r : List Node) (ih0 : Bool)
    (hd : Nat) (ha : HeadAcc) (c : Node)
    (hinv : invOK (.mk stk r ih0 hd ha) = true)
    (hc : containOK c = true)
    (hg : ∀ oe2 rest2, stk = oe2 :: rest2 →
      (canContain oe2.otype c.type || c.type == .mjRaw) = true) :
    invOK (attachNode (.mk stk r ih0 hd ha) c) = true := by
  match stk with
  | [] =>
    rw [show attachNode (PState.mk [] r ih0 hd ha) c =
      PState.mk [] (r ++ [c]) ih0 hd ha from rfl]
    rw [invOK] at hinv ⊢
    simp only [Bool.and_eq_true] at hinv ⊢
    refine ⟨hinv.1, ?_⟩
    simp only [List.all_append, List.all_cons, List.all_nil, Bool.and_true,
      Bool.and_eq_true]
    exact ⟨hinv.2, hc⟩
  | oe :: rest =>
    rw [show attachNode (PState.mk (oe :: rest) r ih0 hd ha) c =
      PState.mk ({ oe with children := oe.children ++ [c] } :: rest) r ih0 hd ha
        from rfl]
    rw [invOK] at hinv ⊢
    simp only [Bool.and_eq_true] at hinv ⊢
    obtain ⟨⟨hA, hB⟩, hC⟩ := hinv
    refine ⟨⟨?_, ?_⟩, hC⟩
    · rw [show stackAdjOK ({ oe with children := oe.children ++ [c] } :: rest) =
        stackAdjOK (oe :: rest) from by cases rest <;> rfl]
      exact hA
    · rw [stackElemsOK, List.all_cons] at hB ⊢
      simp only [Bool.and_eq_true] at hB ⊢
      exact ⟨childrenOK_append oe.otype oe.children c hB.1 (hg oe rest rfl) hc,
        hB.2⟩

theorem invOK_tail (oe : OpenElem) (rest : List OpenElem) (r : List Node)
    (ih0 : Bool) (hd : Nat) (ha : HeadAcc)
    (h : invOK (.mk (oe :: rest) r ih0 hd ha) = true) :
    invOK (.mk rest r ih0 hd ha) = true := by
  rw [invOK] at h ⊢
  simp only [Bool.and_eq_true] at h ⊢
  obtain ⟨⟨hA, hB⟩, hC⟩ := h
  refine ⟨⟨?_, ?_⟩, hC⟩
  · cases rest with
    | nil => rfl
    | cons oe2 rest2 =>
      rw [stackAdjOK] at hA
      simp only [Bool.and_eq_true] at hA
      exact hA.2
  · rw [stackElemsOK, List.all_cons] at hB
    simp only [Bool.and_eq_true] at hB
    exact hB.2

theorem invOK_top_children (oe : OpenElem) (rest : List OpenElem) (r : List Node)
    (ih0 : Bool) (hd : Nat) (ha : HeadAcc)
    (h : invOK (.mk (oe :: rest) r ih0 hd ha) = true) :
    childrenOK oe.otype oe.children = true := by
  rw [invOK] at h
  simp only [Bool.and_eq_true] at h
  have hB := h.1.2
  rw [stackElemsOK, List.all_cons] at hB
  simp only [Bool.and_eq_true] at hB
  exact hB.1

theorem invOK_adj (oe oe2 : OpenElem) (rest2 : List OpenElem) (r : List Node)
    (ih0 : Bool) (hd : Nat) (ha : HeadAcc)
    (h : invOK (.mk (oe :: oe2 :: rest2) r ih0 hd ha) = true) :
    (canContain oe2.otype oe.otype || oe.otype == .mjRaw) = true := by
  rw [invOK] at h
  simp only [Bool.and_eq_true] at h
  have hA := h.1.1
  rw [stackAdjOK] at hA
  simp only [Bool.and_eq_true] at hA
  exact hA.1

theorem invOK_push (E : OpenElem) (stk : List OpenElem) (r : List Node)
    (ih0 : Bool) (hd : Nat) (ha : HeadAcc)
    (h : invOK (.mk stk r ih0 hd ha) = true)
    (hE : childrenOK E.otype E.children = true)
    (hadj : ∀ oe2 rest2, stk = oe2 :: rest2 →
      (canContain oe2.otype E.otype || E.otype == .mjRaw) = true) :
    invOK (.mk (E :: stk) r ih0 hd ha) = true := by
  rw [invOK] at h ⊢
  simp only [Bool.and_eq_true] at h ⊢
  obtain ⟨⟨hA, hB⟩, hC⟩ := h
  refine ⟨⟨?_, ?_⟩, hC⟩
  · cases stk with
    | nil => rfl
    | cons oe2 rest2 =>
      rw [stackAdjOK]
      simp only [Bool.and_eq_true]
      exact ⟨hadj oe2 rest2 rfl, hA⟩
  · rw [stackElemsOK, List.all_cons]
    simp only [Bool.and_eq_true]
    exact ⟨hE, hB⟩

theorem invOK_pop_attach (oe : OpenElem) (rest : List OpenElem) (r : List Node)
    (ih0 : Bool) (hd : Nat) (ha : HeadAcc)
    (h : invOK (.mk (oe :: rest) r ih0 hd ha) = true) :
    invOK (attachNode (.mk rest r ih0 hd ha) (finalizeElem oe)) = true := by
  apply invOK_attach rest r ih0 hd ha _ (invOK_tail oe rest r ih0 hd ha h)
    (containOK_finalize oe (invOK_top_children oe rest r ih0 hd ha h))
  intro oe2 rest2 hrest
  subst hrest
  rcases finalize_type_raw_or oe with hty | hty
  · rw [hty]
    exact invOK_adj oe oe2 rest2 r ih0 hd ha h
  · rw [hty]
    simp

theorem invOK_popThrough (st : PState) (nm : String) (h : invOK st = true) :
    invOK (popThrough st nm) = true := by
  match st with
  | .mk [] r ih0 hd ha =>
    rw [popThrough]
    exact h
  | .mk (oe :: rest) r ih0 hd ha =>
    by_cases hm : oe.tag = nm
    · rw [popThrough, if_pos hm]
      exact invOK_pop_attach oe rest r ih0 hd ha h
    · rw [popThrough, if_neg hm]
      exact invOK_popThrough (attachNode (.mk rest r ih0 hd ha) (finalizeElem oe))
        nm (invOK_pop_attach oe rest r ih0 hd ha h)
termination_by st.stack.length
decreasing_by simp only [attachNode_stack_length, List.length_cons]; omega

theorem invOK_finishStack (st : PState) (h : invOK st = true) :
    invOK (finishStack st) = true := by
  match st with
  | .mk [] r ih0 hd ha =>
    rw [finishStack]
    exact h
  | .mk (oe :: rest) r ih0 hd ha =>
    rw [finishStack]
    exact invOK_finishStack
      (attachNode (.mk rest r ih0 hd ha) (finalizeElem oe))
      (invOK_pop_attach oe rest r ih0 hd ha h)
termination_by st.stack.length
decreasing_by simp only [attachNode_stack_length, List.length_cons]; omega

theorem stepHead_stack_roots (st : PState) (t : Token) :
    (stepHead st t).stack = st.stack ∧ (stepHead st t).roots = st.roots := by
  match st with
  | .mk stk r ih0 hd ha =>
    cases t with
    | tagOpen nm attrs =>
      rw [stepHead]
      split_ifs <;> exact ⟨rfl, rfl⟩
    | tagSelfClose nm attrs =>
      rw [stepHead]
      split_ifs <;> exact ⟨rfl, rfl⟩
    | tagClose nm =>
      rw [stepHead]
      split_ifs <;> exact ⟨rfl, rfl⟩
    | text s => exact ⟨rfl, rfl⟩

theorem invOK_stepCapture (oe : OpenElem) (rest : List OpenElem) (r : List Node)
    (ih0 : Bool) (hd : Nat) (ha : HeadAcc) (t : Token)
    (h : invOK (.mk (oe :: rest) r ih0 hd ha) = true) :
    invOK (stepCapture (.mk (oe :: rest) r ih0 hd ha) oe rest t) = true := by
  cases t with
  | tagOpen nm attrs =>
    rw [stepCapture]
    by_cases hnm : nm = oe.tag
    · rw [if_pos hnm]
      cases rest <;> exact h
    · rw [if_neg hnm]
      cases rest <;> exact h
  | tagSelfClose nm attrs =>
    rw [stepCapture]
    cases rest <;> exact h
  | tagClose nm =>
    rw [stepCapture]
    by_cases hnm : nm = oe.tag
    · rw [if_pos hnm]
      by_cases hdep : oe.depth = 0
      · rw [if_pos hdep]
        by_cases hr : oe.rawCapture = true
        · rw [if_pos hr]
          show invOK (attachNode (.mk rest r ih0 hd ha)
            (finalizeElem { oe with
              buffer := oe.buffer ++ renderToken (.tagClose nm),
              hasBuf := true })) = true
          apply invOK_attach rest r ih0 hd ha _
            (invOK_tail oe rest r ih0 hd ha h)
            (containOK_finalize { oe with
                buffer := oe.buffer ++ renderToken (.tagClose nm),
                hasBuf := true }
              (invOK_top_children oe rest r ih0 hd ha h))
          intro oe2 rest2 hrest
          subst hrest
          rcases finalize_type_raw_or { oe with
              buffer := oe.buffer ++ renderToken (.tagClose nm),
              hasBuf := true } with hty | hty
          · rw [hty]
            exact invOK_adj oe oe2 rest2 r ih0 hd ha h
          · rw [hty]
            simp
        · rw [if_neg hr]
          show invOK (attachNode (.mk rest r ih0 hd ha) (finalizeElem oe)) = true
          exact invOK_pop_attach oe rest r ih0 hd ha h
      · rw [if_neg hdep]
        cases rest <;> exact h
    · rw [if_neg hnm]
      cases rest <;> exact h
  | text s =>
    rw [stepCapture]
    cases rest <;> exact h

theorem invOK_stepMain (stk : List OpenElem) (r : List Node) (ih0 : Bool)
    (hd : Nat) (ha : HeadAcc) (t : Token)
    (h : invOK (.mk stk r ih0 hd ha) = true) :
    invOK (stepMain (.mk stk r ih0 hd ha) t) = true := by
  cases t with
  | tagOpen nm attrs =>
    rw [stepMain]
    by_cases hh : nm = "mj-head"
    · rw [if_pos hh]
      exact h
    · rw [if_neg hh]
      match hty : tagToType nm with
      | none =>
        rw [openDispatch, pushRawOpen]
        show invOK (.mk
          (⟨.mjRaw, nm, [], [], renderToken (.tagOpen nm attrs), true, true,
            true, 0⟩ :: stk) r ih0 hd ha) = true
        apply invOK_push
          ⟨.mjRaw, nm, [], [], renderToken (.tagOpen nm attrs), true, true,
            true, 0⟩ stk r ih0 hd ha h rfl
        intro oe2 rest2 hrest
        simp
      | some ty =>
        rw [openDispatch]
        by_cases hacc : topAccepts stk ty = true
        · rw [if_pos hacc]
          show invOK (.mk
            (⟨ty, nm, mergeDefaults ty attrs, [], [], false, hasTextContent ty,
              false, 0⟩ :: stk) r ih0 hd ha) = true
          apply invOK_push
            ⟨ty, nm, mergeDefaults ty attrs, [], [], false, hasTextContent ty,
              false, 0⟩ stk r ih0 hd ha h rfl
          intro oe2 rest2 hrest
          subst hrest
          rw [topAccepts] at hacc
          simp only [Bool.or_eq_true]
          exact Or.inl hacc
        · rw [if_neg hacc, pushRawOpen]
          show invOK (.mk
            (⟨.mjRaw, nm, [], [], renderToken (.tagOpen nm attrs), true, true,
              true, 0⟩ :: stk) r ih0 hd ha) = true
          apply invOK_push
            ⟨.mjRaw, nm, [], [], renderToken (.tagOpen nm attrs), true, true,
              true, 0⟩ stk r ih0 hd ha h rfl
          intro oe2 rest2 hrest
          simp
  | tagSelfClose nm attrs =>
    rw [stepMain]
    match hty : tagToType nm with
    | none =>
      rw [selfDispatch]
      apply invOK_attach stk r ih0 hd ha
        (.mk 0 .mjRaw [] [] (some (String.mk (renderToken (.tagSelfClose nm attrs)))))
        h rfl
      intro oe2 rest2 hrest
      simp
    | some ty =>
      rw [selfDispatch]
      by_cases hacc : topAccepts stk ty = true
      · rw [if_pos hacc]
        apply invOK_attach stk r ih0 hd ha
          (.mk 0 ty (mergeDefaults ty attrs) [] none) h rfl
        intro oe2 rest2 hrest
        subst hrest
        rw [topAccepts] at hacc
        simp only [Bool.or_eq_true]
        exact Or.inl hacc
      · rw [if_neg hacc]
        apply invOK_attach stk r ih0 hd ha
          (.mk 0 .mjRaw [] []
            (some (String.mk (renderToken (.tagSelfClose nm attrs))))) h rfl
        intro oe2 rest2 hrest
        simp
  | tagClose nm =>
    rw [stepMain, closeStack]
    by_cases hany : ((PState.mk stk r ih0 hd ha).stack.any
        (fun oe => oe.tag == nm)) = true
    · rw [if_pos hany]
      exact invOK_popThrough _ nm h
    · rw [if_neg hany]
      exact h
  | text s =>
    rw [stepMain]
    by_cases hws : s.data.all Char.isWhitespace = true
    · rw [if_pos hws]
      exact h
    · rw [if_neg hws]
      match stk with
      | [] =>
        rw [textDispatch]
        apply invOK_attach [] r ih0 hd ha
          (.mk 0 .mjText (mergeDefaults .mjText []) [] (some s)) h rfl
        intro oe2 rest2 hrest
        exact absurd hrest (by simp)
      | oe :: rest =>
        rw [textDispatch]
        by_cases hcc : canContain oe.otype .mjText = true
        · rw [if_pos hcc]
          apply invOK_attach (oe :: rest) r ih0 hd ha
            (.mk 0 .mjText (mergeDefaults .mjText []) [] (some s)) h rfl
          intro oe2 rest2 hrest
          rw [List.cons.injEq] at hrest
          rw [← hrest.1]
          simp only [Bool.or_eq_true]
          exact Or.inl hcc
        · rw [if_neg hcc]
          exact h

theorem invOK_step (st : PState) (t : Token) (h : invOK st = true) :
    invOK (step st t) = true := by
  match st with
  | .mk stk r ih0 hd ha =>
    rw [step]
    by_cases hh : ih0 = true
    · rw [if_pos hh]
      have hs := stepHead_stack_roots (.mk stk r ih0 hd ha) t
      rw [invOK, hs.1, hs.2]
      rw [invOK] at h
      exact h
    · rw [if_neg hh]
      match stk with
      | [] =>
        rw [stepBody]
        exact invOK_stepMain [] r ih0 hd ha t h
      | oe :: rest =>
        rw [stepBody]
        by_cases hcap : oe.capturing = true
        · rw [if_pos hcap]
          exact invOK_stepCapture oe rest r ih0 hd ha t h
        · rw [if_neg hcap]
          exact invOK_stepMain (oe :: rest) r ih0 hd ha t h

theorem invOK_runTokens (st : PState) (ts : List Token) (h : invOK st = true) :
    invOK (runTokens st ts) = true := by
  induction ts generalizing st with
  | nil => exact h
  | cons t ts ih =>
    rw [runTokens_cons]
    exact ih (step st t) (invOK_step st t h)

theorem parseShape_containOK (s : String) (R : Node)
    (h : parseShape s = .ok (some R)) : containOK R = true := by
  rw [parseShape] at h
  match hlex : lexMain s.data with
  | .error e =>
    rw [hlex] at h
    simp [Except.map] at h
  | .ok ts =>
    rw [hlex] at h
    simp only [Except.map, Except.ok.injEq] at h
    have hinv : invOK (finishStack (runTokens initPState ts)) = true :=
      invOK_finishStack _ (invOK_runTokens initPState ts rfl)
    rw [invOK] at hinv
    simp only [Bool.and_eq_true] at hinv
    have hC := hinv.2
    match hroots : (finishStack (runTokens initPState ts)).roots with
    | [] =>
      rw [hroots] at h
      simp at h
    | r0 :: rs =>
      rw [hroots] at h hC
      simp only [List.head?_cons, Option.some.injEq] at h
      rw [List.all_cons] at hC
      simp only [Bool.and_eq_true] at hC
      rw [← h]
      exact hC.1

mutual

theorem containOK_clone (n : Node) (k : Nat) :
    containOK (cloneDocumentWithNewIds n k).1 = containOK n := by
  match n with
  | .mk i t p children c =>
    rw [show (cloneDocumentWithNewIds (.mk i t p children c) k).1 =
      .mk k t p (cloneListWithNewIds children (k + 1)).1 c from rfl]
    rw [containOK, containOK]
    exact childrenOK_cloneList t children (k + 1)

theorem childrenOK_cloneList (t : MJType) (ns : List Node) (k : Nat) :
    childrenOK t (cloneListWithNewIds ns k).1 = childrenOK t ns := by
  match ns with
  | [] => rfl
  | n :: rest =>
    rw [show (cloneListWithNewIds (n :: rest) k).1 =
      (cloneDocumentWithNewIds n k).1 ::
        (cloneListWithNewIds rest (cloneDocumentWithNewIds n k).2).1 from rfl]
    rw [childrenOK, childrenOK]
    rw [containOK_clone n k,
      childrenOK_cloneList t rest (cloneDocumentWithNewIds n k).2,
      clone_type n k]

end

theorem parseMjmlToNode_containOK (s : String) (k kf : Nat) (R : Node)
    (h : parseMjmlToNode s k = .ok (some R, kf)) : containOK R = true := by
  match hps : parseShape s with
  | .error e =>
    rw [parseMjmlToNode, hps] at h
    simp [Except.map] at h
  | .ok none =>
    rw [parseMjmlToNode, hps] at h
    simp [Except.map] at h
  | .ok (some sh) =>
    rw [parseMjmlToNode, hps] at h
    simp only [Except.map, Except.ok.injEq, Prod.mk.injEq, Option.some.injEq] at h
    rw [← h.1, containOK_clone]
    exact parseShape_containOK s sh hps

/-- Parsing a structurally-valid section misplaced inside a column: the
parser does not fail, and the section is coerced to a raw passthrough
child of the column, preserving its markup. -/
theorem parse_column_misplaced_section :
    parseMjmlToNode "<mj-column><mj-section>x</mj-section></mj-column>" 0 =
      .ok (some (Node.mk 0 .mjColumn [("padding", "10px")]
        [Node.mk 1 .mjRaw [] [] (some "<mj-section>x</mj-section>")] none), 2) := by
  have hs : "<mj-column><mj-section>x</mj-section></mj-column>".data =
      renderTokens [Token.tagOpen "mj-column" [], Token.tagOpen "mj-section" [],
        Token.text "x", Token.tagClose "mj-section",
        Token.tagClose "mj-column"] := by decide
  have hlex : lexMain "<mj-column><mj-section>x</mj-section></mj-column>".data =
      .ok [Token.tagOpen "mj-column" [], Token.tagOpen "mj-section" [],
        Token.text "x", Token.tagClose "mj-section",
        Token.tagClose "mj-column"] := by
    rw [hs]
    exact lexMain_renderTokens _ (by decide)
  rw [parseMjmlToNode, parseShape, hlex]
  simp only [Except.map]
  rw [runTokens_cons]
  rw [show step initPState (Token.tagOpen "mj-column" []) =
    PState.mk [⟨.mjColumn, "mj-column", [("padding", "10px")], [], [], false,
      false, false, 0⟩] [] false 0 ⟨[], none, [], false⟩ from rfl]
  rw [runTokens_cons]
  rw [show step (PState.mk [⟨.mjColumn, "mj-column", [("padding", "10px")], [],
      [], false, false, false, 0⟩] [] false 0 ⟨[], none, [], false⟩)
      (Token.tagOpen "mj-section" []) =
    PState.mk [⟨.mjRaw, "mj-section", [], [],
        renderToken (Token.tagOpen "mj-section" []), true, true, true, 0⟩,
      ⟨.mjColumn, "mj-column", [("padding", "10px")], [], [], false, false,
        false, 0⟩] [] false 0 ⟨[], none, [], false⟩ from rfl]
  rw [runTokens_cons]
  rw [show step (PState.mk [⟨.mjRaw, "mj-section", [], [],
        renderToken (Token.tagOpen "mj-section" []), true, true, true, 0⟩,
      ⟨.mjColumn, "mj-column", [("padding", "10px")], [], [], false, false,
        false, 0⟩] [] false 0 ⟨[], none, [], false⟩) (Token.text "x") =
    PState.mk [⟨.mjRaw, "mj-section", [], [],
        renderToken (Token.tagOpen "mj-section" []) ++ "x".data, true, true,
        true, 0⟩,
      ⟨.mjColumn, "mj-column", [("padding", "10px")], [], [], false, false,
        false, 0⟩] [] false 0 ⟨[], none, [], false⟩ from rfl]
  rw [runTokens_cons]
  rw [show step (PState.mk [⟨.mjRaw, "mj-section", [], [],
        renderToken (Token.tagOpen "mj-section" []) ++ "x".data, true, true,
        true, 0⟩,
      ⟨.mjColumn, "mj-column", [("padding", "10px")], [], [], false, false,
        false, 0⟩] [] false 0 ⟨[], none, [], false⟩)
      (Token.tagClose "mj-section") =
    PState.mk [⟨.mjColumn, "mj-column", [("padding", "10px")],
        [Node.mk 0 .mjRaw [] [] (some "<mj-section>x</mj-section>")], [],
        false, false, false, 0⟩] [] false 0 ⟨[], none, [], false⟩ from rfl]
  rw [runTokens_cons, runTokens_nil]
  have h5 : step (PState.mk [⟨.mjColumn, "mj-column", [("padding", "10px")],
        [Node.mk 0 .mjRaw [] [] (some "<mj-section>x</mj-section>")], [],
        false, false, false, 0⟩] [] false 0 ⟨[], none, [], false⟩)
      (Token.tagClose "mj-column") =
      PState.mk [] [Node.mk 0 .mjColumn [("padding", "10px")]
        [Node.mk 0 .mjRaw [] [] (some "<mj-section>x</mj-section>")] none]
        false 0 ⟨[], none, [], false⟩ := by
    change closeStack (PState.mk [⟨.mjColumn, "mj-column", [("padding", "10px")],
        [Node.mk 0 .mjRaw [] [] (some "<mj-section>x</mj-section>")], [],
        false, false, false, 0⟩] [] false 0 ⟨[], none, [], false⟩)
      "mj-column" = _
    rw [closeStack_top_match _
      ⟨.mjColumn, "mj-column", [("padding", "10px")],
        [Node.mk 0 .mjRaw [] [] (some "<mj-section>x</mj-section>")], [],
        false, false, false, 0⟩ [] "mj-column" rfl rfl]
    rfl
  rw [h5, finishStack]
  rfl

/-- C5: every tree the parser returns satisfies the containment
invariant — each node's children are allowed in it by the schema or are
raw passthrough nodes — and the misplaced-section scenario neither fails
nor reparents the section as a structurally valid child of the column:
it becomes a raw node preserving the markup. -/
theorem claim5_parser_containment_invariant (s : String) (k kf : Nat) (R : Node)
    (h : parseMjmlToNode s k = .ok (some R, kf)) :
    containOK R = true ∧
    parseMjmlToNode "<mj-column><mj-section>x</mj-section></mj-column>" 0 =
      .ok (some (Node.mk 0 .mjColumn [("padding", "10px")]
        [Node.mk 1 .mjRaw [] [] (some "<mj-section>x</mj-section>")] none), 2) :=
  ⟨parseMjmlToNode_containOK s k kf R h, parse_column_misplaced_section⟩

theorem claim5_parser_containment_invariant_witness :
    parseMjmlToNode "<mj-column><mj-section>x</mj-section></mj-column>" 0 =
      .ok (some (Node.mk 0 .mjColumn [("padding", "10px")]
        [Node.mk 1 .mjRaw [] [] (some "<mj-section>x</mj-section>")] none), 2) ∧
    containOK (Node.mk 0 .mjColumn [("padding", "10px")]
      [Node.mk 1 .mjRaw [] [] (some "<mj-section>x</mj-section>")] none) = true :=
  ⟨parse_column_misplaced_section,
    (claim5_parser_containment_invariant
      "<mj-column><mj-section>x</mj-section></mj-column>" 0 2
      (Node.mk 0 .mjColumn [("padding", "10px")]
        [Node.mk 1 .mjRaw [] [] (some "<mj-section>x</mj-section>")] none)
      parse_column_misplaced_section).1⟩

/-! ## C2: locked-region boundary detection in the code editor -/

/-- A character of the regex class `[\w-]`. -/
def isWordChar (c : Char) : Bool := c.isAlphanum || c == '_' || c == '-'

/-- JavaScript `code.split("\n")`. -/
def splitLines : List Char → List (List Char)
  | [] => [[]]
  | c :: rest =>
      if c = '\n' then [] :: splitLines rest
      else
        match splitLines rest with
        | [] => [[c]]
        | l :: ls => (c :: l) :: ls

/-- Case-insensitive character comparison (the regexes carry the `i`
flag). -/
def eqCI (a b : Char) : Bool := a.toLower == b.toLower

def isPrefixCI : List Char → List Char → Bool
  | [], _ => true
  | _ :: _, [] => false
  | a :: as2, b :: bs => eqCI a b && isPrefixCI as2 bs

def isSubListCI (needle : List Char) : List Char → Bool
  | [] => isPrefixCI needle []
  | c :: rest => isPrefixCI needle (c :: rest) || isSubListCI needle rest

/-- Index of the first `>` in the list, if any. -/
def firstGt : List Char → Option Nat
  | [] => none
  | c :: rest => if c = '>' then some 0 else (firstGt rest).map (fun i => i + 1)

/-- The literal `data-locked="true"` required inside the opening tag. -/
def lockedLit : List Char := "data-locked=\"true\"".data

/-- Backtracking of the greedy tag-name group `(mj-[\w-]+|[\w-]+)`: the
captured name is the longest prefix of the word-character run after `<`
that still lets the rest of the open-tag pattern
(`[^>]*data-locked="true"[^>]*>`) match; since `[^>]` cannot cross a `>`
the terminating `>` is the first one, and since both alternatives
backtrack through the same name lengths, the alternation does not change
the accepted name. -/
def bestNameLen (rest : List Char) (jr : Nat) : Nat → Option Nat
  | 0 => none
  | k + 1 =>
      if isSubListCI lockedLit ((rest.take jr).drop (k + 1)) then some (k + 1)
      else bestNameLen rest jr k

/-- One attempted match of the open-tag regex
`/<(mj-[\w-]+|[\w-]+)[^>]*data-locked="true"[^>]*>/gi` at position `i`:
the captured tag name and the match end (exclusive). -/
def openTagMatchAt (line : List Char) (i : Nat) : Option (String × Nat) :=
  match line.drop i with
  | '<' :: rest =>
      match firstGt rest with
      | none => none
      | some jr =>
          match bestNameLen rest jr (rest.takeWhile isWordChar).length with
          | none => none
          | some k => some (String.mk (rest.take k), i + 1 + jr + 1)
  | _ => none

/-- The `exec` loop of the open-tag regex with `lastIndex` advancement:
each match reports (start, end, captured name, whether `match[0]` ends in
`/>`); the fuel bounds the position scan. -/
def openTagScan (line : List Char) : Nat → Nat → List (Nat × Nat × String × Bool)
  | 0, _ => []
  | fuel + 1, s =>
      match openTagMatchAt line s with
      | some (nm, e) =>
          (s, e, nm, decide (line.getD (e - 2) ' ' = '/')) ::
            openTagScan line fuel e
      | none => if s < line.length then openTagScan line fuel (s + 1) else []

/-- One attempted match of the closing-tag regex
`/<\/(mj-[\w-]+|[\w-]+)>/gi` at position `i`: after `</` the name run
must be followed directly by `>`, so no backtracking applies. -/
def closeTagMatchAt (line : List Char) (i : Nat) : Option (String × Nat) :=
  match line.drop i with
  | '<' :: '/' :: rest =>
      match rest.takeWhile isWordChar with
      | [] => none
      | nmRun =>
          match rest.drop nmRun.length with
          | '>' :: _ => some (String.mk nmRun, i + 2 + nmRun.length + 1)
          | _ => none
  | _ => none

def closeTagScan (line : List Char) : Nat → Nat → List String
  | 0, _ => []
  | fuel + 1, s =>
      match closeTagMatchAt line s with
      | some (nm, e) => nm :: closeTagScan line fuel e
      | none => if s < line.length then closeTagScan line fuel (s + 1) else []

/-- `String.prototype.toLowerCase` on the captured names. -/
def lowerString (s : String) : String := String.mk (s.data.map Char.toLower)

/-- An entry of the `lockedStack`; the list head is the stack top. -/
structure LockEntry where
  tagName : String
  startLine : Nat
  startColumn : Nat
deriving DecidableEq, Repr

/-- The open-tag loop of `findLockedRegions`: a self-closing locked tag
emits a whole-line region immediately; an opening locked tag is pushed. -/
def processOpens (lineNumber : Nat) :
    List LockedRegion × List LockEntry → List (Nat × Nat × String × Bool) →
    List LockedRegion × List LockEntry
  | acc, [] => acc
  | (regions, stack), (s, e, nm, selfC) :: ms =>
      if selfC then
        processOpens lineNumber
          (regions ++ [⟨lineNumber, lineNumber, s + 1, e + 1⟩], stack) ms
      else
        processOpens lineNumber
          (regions, ⟨lowerString nm, lineNumber, s + 1⟩ :: stack) ms

/-- `lockedStack.splice(j, 1)` for the topmost `j` whose entry matches:
removes exactly that one entry, keeping every other entry — including the
intervening ones above the match — on the stack. -/
def spliceFirst : List LockEntry → String → Option (LockEntry × List LockEntry)
  | [], _ => none
  | e :: rest, nm =>
      if e.tagName = nm then some (e, rest)
      else
        match spliceFirst rest nm with
        | some (f, rest2) => some (f, e :: rest2)
        | none => none

/-- The closing-tag loop of `findLockedRegions`: each closing name that
matches some stack entry (searched from the top) splices that entry out
and emits a region from its start line to the current line. -/
def processCloses (lineNumber lineLen : Nat) :
    List LockedRegion × List LockEntry → List String →
    List LockedRegion × List LockEntry
  | acc, [] => acc
  | (regions, stack), nm :: ms =>
      match spliceFirst stack (lowerString nm) with
      | some (entry, stack2) =>
          processCloses lineNumber lineLen
            (regions ++ [⟨entry.startLine, lineNumber, 1, lineLen + 1⟩], stack2) ms
      | none => processCloses lineNumber lineLen (regions, stack) ms

/-- One line of `findLockedRegions`: all open-tag matches first, then —
only when the stack is nonempty after them — all closing-tag matches. -/
def processLine (acc : List LockedRegion × List LockEntry) (lineNumber : Nat)
    (line : List Char) : List LockedRegion × List LockEntry :=
  let acc1 := processOpens lineNumber acc (openTagScan line (line.length + 1) 0)
  if acc1.2.isEmpty then acc1
  else processCloses lineNumber line.length acc1
    (closeTagScan line (line.length + 1) 0)

def processLines : List LockedRegion × List LockEntry → Nat →
    List (List Char) → List LockedRegion × List LockEntry
  | acc, _, [] => acc
  | acc, n, line :: rest => processLines (processLine acc n line) (n + 1) rest

/-- `findLockedRegions(code)`: scan the lines for locked opening/closing
tags and report the locked line/column regions. -/
def findLockedRegions (code : String) : List LockedRegion :=
  (processLines ([], []) 1 (splitLines code.data)).1

/-- Defined from the spec's words, for comparison with the source: the
close-intervening policy — on a closing tag, search the stack downward
for a match; if found, close that entry AND all intervening entries above
it (each closed entry yields a region ending at this line); if not found,
ignore the stray closing tag. -/
def popLockedThrough : List LockEntry → String → Nat → Nat →
    List LockedRegion × List LockEntry
  | [], _, _, _ => ([], [])
  | e :: rest, nm, lineNumber, lineLen =>
      if e.tagName = nm then ([⟨e.startLine, lineNumber, 1, lineLen + 1⟩], rest)
      else
        match popLockedThrough rest nm lineNumber lineLen with
        | (rs, rest2) => (⟨e.startLine, lineNumber, 1, lineLen + 1⟩ :: rs, rest2)

/-- Defined from the spec's words: the closing-tag loop under the
close-intervening policy. -/
def processClosesSpecPolicy (lineNumber lineLen : Nat) :
    List LockedRegion × List LockEntry → List String →
    List LockedRegion × List LockEntry
  | acc, [] => acc
  | (regions, stack), nm :: ms =>
      if stack.any (fun e => e.tagName == lowerString nm) then
        match popLockedThrough stack (lowerString nm) lineNumber lineLen with
        | (rs, stack2) =>
            processClosesSpecPolicy lineNumber lineLen (regions ++ rs, stack2) ms
      else processClosesSpecPolicy lineNumber lineLen (regions, stack) ms

/-- Defined from the spec's words: one line under the close-intervening
policy. -/
def processLineSpecPolicy (acc : List LockedRegion × List LockEntry)
    (lineNumber : Nat) (line : List Char) :
    List LockedRegion × List LockEntry :=
  let acc1 := processOpens lineNumber acc (openTagScan line (line.length + 1) 0)
  if acc1.2.isEmpty then acc1
  else processClosesSpecPolicy lineNumber line.length acc1
    (closeTagScan line (line.length + 1) 0)

def processLinesSpecPolicy : List LockedRegion × List LockEntry → Nat →
    List (List Char) → List LockedRegion × List LockEntry
  | acc, _, [] => acc
  | acc, n, line :: rest =>
      processLinesSpecPolicy (processLineSpecPolicy acc n line) (n + 1) rest

/-- Defined from the spec's words: `findLockedRegions` as it would behave
under the close-intervening policy the claim asserts. -/
def findLockedRegionsSpecPolicy (code : String) : List LockedRegion :=
  (processLinesSpecPolicy ([], []) 1 (splitLines code.data)).1

theorem attachNode_stack_tags (st : PState) (c : Node) :
    (attachNode st c).stack.map OpenElem.tag = st.stack.map OpenElem.tag := by
  unfold attachNode
  match st with
  | .mk [] r ih hd h => rfl
  | .mk (oe :: rest) r ih hd h => rfl

/-- The parser's close recovery pops the matched entry and every
intervening entry above it: of the open-tag stack only what sat below the
match stays open. -/
theorem popThrough_tags (st : PState) (nm : String) (tpre tpost : List String)
    (hst : st.stack.map OpenElem.tag = tpre ++ nm :: tpost)
    (hpre : ∀ x ∈ tpre, ¬(x = nm)) :
    (popThrough st nm).stack.map OpenElem.tag = tpost := by
  induction tpre generalizing st with
  | nil =>
    match st with
    | .mk [] r ih0 hd ha => simp at hst
    | .mk (oe :: rest) r ih0 hd ha =>
      rw [List.nil_append,
        show (PState.mk (oe :: rest) r ih0 hd ha).stack.map OpenElem.tag =
          oe.tag :: rest.map OpenElem.tag from rfl,
        List.cons.injEq] at hst
      rw [popThrough, if_pos hst.1, attachNode_stack_tags]
      exact hst.2
  | cons tx tpre' ih =>
    match st with
    | .mk [] r ih0 hd ha => simp at hst
    | .mk (oe :: rest) r ih0 hd ha =>
      rw [List.cons_append,
        show (PState.mk (oe :: rest) r ih0 hd ha).stack.map OpenElem.tag =
          oe.tag :: rest.map OpenElem.tag from rfl,
        List.cons.injEq] at hst
      have hne : ¬(oe.tag = nm) := by
        rw [hst.1]
        exact hpre tx (by simp)
      rw [popThrough, if_neg hne]
      apply ih
      · rw [attachNode_stack_tags]
        exact hst.2
      · intro x hx
        exact hpre x (by simp [hx])

theorem closeStack_tags (st : PState) (nm : String) (tpre tpost : List String)
    (hst : st.stack.map OpenElem.tag = tpre ++ nm :: tpost)
    (hpre : ∀ x ∈ tpre, ¬(x = nm)) :
    (closeStack st nm).stack.map OpenElem.tag = tpost := by
  rw [closeStack, if_pos ?_]
  · exact popThrough_tags st nm tpre tpost hst hpre
  · rw [List.any_eq_true]
    have hmem : nm ∈ st.stack.map OpenElem.tag := by
      rw [hst]
      simp
    rw [List.mem_map] at hmem
    obtain ⟨oe, hoe, htag⟩ := hmem
    exact ⟨oe, hoe, by simp [htag]⟩

/-- `findLockedRegions`' close step removes exactly the topmost matching
entry and keeps every other entry — including all intervening entries
above the match — on the stack, in order. -/
theorem spliceFirst_eq (pre post : List LockEntry) (e : LockEntry) (nm : String)
    (hpre : ∀ x ∈ pre, ¬(x.tagName = nm)) (he : e.tagName = nm) :
    spliceFirst (pre ++ e :: post) nm = some (e, pre ++ post) := by
  induction pre with
  | nil =>
    rw [List.nil_append, spliceFirst, if_pos he, List.nil_append]
  | cons x pre' ih =>
    rw [List.cons_append, spliceFirst, if_neg (hpre x (by simp)),
      ih (fun y hy => hpre y (by simp [hy]))]
    rfl

/-- The four-line nested locked markup on which the two close policies
visibly diverge. -/
def lockedExample : String :=
  "<mj-section data-locked=\"true\">\n<mj-column data-locked=\"true\">\n</mj-section>\n</mj-column>"

theorem claim2_close_policy_counterexample :
    findLockedRegions lockedExample =
      [⟨1, 3, 1, 14⟩, ⟨2, 4, 1, 13⟩] ∧
    findLockedRegionsSpecPolicy lockedExample =
      [⟨2, 3, 1, 14⟩, ⟨1, 3, 1, 14⟩] ∧
    findLockedRegions lockedExample ≠ findLockedRegionsSpecPolicy lockedExample := by
  have h1 : findLockedRegions lockedExample =
      [⟨1, 3, 1, 14⟩, ⟨2, 4, 1, 13⟩] := by decide
  have h2 : findLockedRegionsSpecPolicy lockedExample =
      [⟨2, 3, 1, 14⟩, ⟨1, 3, 1, 14⟩] := by decide
  exact ⟨h1, h2, by rw [h1, h2]; decide⟩

/-- C2 (amended): the parser's close recovery does follow the
close-intervening nesting-stack policy — a closing tag whose match sits
below intervening open entries closes the match and every intervening
entry — but `findLockedRegions` does not follow that policy: its close
step (`splice(j, 1)`) removes only the matched entry and keeps every
intervening entry on the locked stack. -/
theorem claim2_locked_region_close_policy (nm : String) :
    (∀ (st : PState) (tpre tpost : List String),
      st.stack.map OpenElem.tag = tpre ++ nm :: tpost →
      (∀ x ∈ tpre, ¬(x = nm)) →
      (closeStack st nm).stack.map OpenElem.tag = tpost) ∧
    (∀ (pre post : List LockEntry) (e : LockEntry),
      (∀ x ∈ pre, ¬(x.tagName = nm)) → e.tagName = nm →
      spliceFirst (pre ++ e :: post) nm = some (e, pre ++ post)) :=
  ⟨fun st tpre tpost hst hpre => closeStack_tags st nm tpre tpost hst hpre,
   fun pre post e hpre he => spliceFirst_eq pre post e nm hpre he⟩

theorem claim2_locked_region_close_policy_witness :
    (closeStack (PState.mk
      [⟨.mjColumn, "mj-column", [], [], [], false, false, false, 0⟩,
       ⟨.mjSection, "mj-section", [], [], [], false, false, false, 0⟩,
       ⟨.mjBody, "mj-body", [], [], [], false, false, false, 0⟩] [] false 0
      ⟨[], none, [], false⟩) "mj-section").stack.map OpenElem.tag =
      ["mj-body"] ∧
    spliceFirst [⟨"mj-column", 2, 1⟩, ⟨"mj-section", 1, 1⟩, ⟨"mj-body", 1, 1⟩]
      "mj-section" =
      some (⟨"mj-section", 1, 1⟩, [⟨"mj-column", 2, 1⟩, ⟨"mj-body", 1, 1⟩]) :=
  ⟨(claim2_locked_region_close_policy "mj-section").1
    (PState.mk
      [⟨.mjColumn, "mj-column", [], [], [], false, false, false, 0⟩,
       ⟨.mjSection, "mj-section", [], [], [], false, false, false, 0⟩,
       ⟨.mjBody, "mj-body", [], [], [], false, false, false, 0⟩] [] false 0
      ⟨[], none, [], false⟩) ["mj-column"] ["mj-body"] rfl (by decide),
   (claim2_locked_region_close_policy "mj-section").2
     [⟨"mj-column", 2, 1⟩] [⟨"mj-body", 1, 1⟩] ⟨"mj-section", 1, 1⟩
     (by decide) rfl⟩

end MailStudio
